import Mathlib

/-!
# Verification of the explobook PDF-to-HTML pipeline

A shallow embedding of the `explobook` package (`model.py`, `classifier.py`,
`exporter.py`, `extractor.py`) together with theorems settling the frozen
claims about it.

Modelling conventions:
* Python word dicts become the structure `Word`; coordinates and sizes are
  `Int`, since `extractor.normalize` rounds them to integers before any of
  the verified code runs.
* Python code that can raise (out-of-range indexing such as `words[0]`,
  `text[-1]`, or `min`/`max` of an empty sequence) is modelled in the
  `Option` monad: `none` means the Python code raises.
* `str.join` is modelled at the character-list level
  (`List.intercalate` on `List Char`), `itertools.groupby` by the
  consecutive-run grouper `group_runs`.
* In-place mutation (`fix_word_breaks`, `list.remove`) is modelled by
  explicit state passing; the mutated objects are threaded to every later
  use exactly in the source's evaluation order.
* `classify_lines` recurses on sublists; the embedding uses a fuel
  parameter (`classify_lines_fuel`), and `classify_lines` supplies
  `lines.length + 1` fuel, which the totality development shows is enough.
* `classify_lines` and its helpers additionally return the number of
  dehyphenation merges performed (`fix_word_breaks` returns the repaired
  lines paired with its merge count); the element results are exactly the
  source's, the counter is pure instrumentation used by the word-count
  conservation claim.
-/

namespace Explobook

/-- One positioned token of the PDF, `model.Word` (the fields the verified
code reads: text, fontname, size and the four coordinates; coordinates are
integers after `extractor.normalize`). -/
structure Word where
  text : String
  fontname : String
  size : Int
  x0 : Int
  x1 : Int
  top : Int
  bottom : Int
deriving DecidableEq

instance : Inhabited Word := ⟨⟨"", "", 0, 0, 0, 0, 0⟩⟩

/-- `model.Line`: an ordered run of words sharing a baseline. -/
structure Line where
  words : List Word
deriving DecidableEq

instance : Inhabited Line := ⟨⟨[]⟩⟩

/-- `classifier.FormattedText` / `model.FormattedText`: a style-tagged run
of text. -/
structure FormattedText where
  style : String
  text : String
deriving DecidableEq

/-- The structural elements built by `classifier.py`:
`Paragraph`, `Listing`, `Header`. -/
inductive Element where
  | paragraph (text : List FormattedText) (box : List Int)
  | listing (kind : String) (items : List (List FormattedText)) (box : List Int)
  | header (level : String) (formatted_text : List FormattedText) (box : List Int)
deriving DecidableEq

instance : Inhabited Element := ⟨.paragraph [] []⟩

/-- `model.Cell`: a table cell holding nested sections (each section a list
of lines). -/
structure Cell where
  sections : List (List Line)
deriving DecidableEq

/-- `model.Row`. -/
structure Row where
  cells : List Cell
deriving DecidableEq

/-- `model.TableText`: rows plus the external table bounding box
(a pdfplumber `(x0, top, x1, bottom)` tuple, modelled as a list). -/
structure TableText where
  rows : List Row
  box : List Int
deriving DecidableEq

/-- `model.Document` (and the structurally identical `classifier.Document`):
one page's classified elements plus its tables. -/
structure Document where
  elements : List Element
  tables : List TableText
deriving DecidableEq

instance : Inhabited Document := ⟨[], []⟩

/-- The mixed values `Document.all_elements` sorts: structural elements and
tables. -/
inductive DocItem where
  | el (e : Element)
  | table (t : TableText)
deriving DecidableEq

/-- `.box` of a structural element. -/
def Element.box : Element → List Int
  | .paragraph _ b => b
  | .listing _ _ b => b
  | .header _ _ b => b

/-- `.box` of a sortable document item. -/
def DocItem.box : DocItem → List Int
  | .el e => e.box
  | .table t => t.box

/-- `classifier.is_bold` (string form): the font name contains `"Black"` or
`"Bold"`. -/
def is_bold (font : String) : Bool :=
  decide ("Black".data <:+: font.data) || decide ("Bold".data <:+: font.data)

/-- `classifier.is_medium`: the font name contains `"Medium"`. -/
def is_medium (font : String) : Bool :=
  decide ("Medium".data <:+: font.data)

/-- `classifier.is_italic`: the font name contains `"Italic"`. -/
def is_italic (font : String) : Bool :=
  decide ("Italic".data <:+: font.data)

/-- `classifier.font_style`. -/
def font_style (font : String) : String :=
  let bold := is_bold font || is_medium font
  let italic := is_italic font
  if bold && italic then "bold-italic"
  else if bold then "bold"
  else if italic then "italic"
  else "normal"

/-- `" ".join(...)`, modelled at the character level. -/
def join_space (l : List String) : String :=
  String.mk ([' '].intercalate (l.map String.data))

/-- `itertools.groupby(words, fontname)`: maximal runs of consecutive words
sharing a font name.  A word joins the following run exactly when it shares
that run's font name. -/
def group_runs : List Word → List (List Word)
  | [] => []
  | [w] => [[w]]
  | w :: w' :: ws =>
    match group_runs (w' :: ws) with
    | g :: gs =>
      if w.fontname = w'.fontname then (w :: g) :: gs
      else [w] :: g :: gs
    | [] => [[w]]

/-- `classifier.format_text`: one style run per font-name group, text the
space-joined word texts. -/
def format_text (words : List Word) : List FormattedText :=
  (group_runs words).map fun g =>
    { style := font_style (g.headD default).fontname
      text := join_space (g.map (·.text)) }

/-- Python `min` over a list (raises = `none` on empty input). -/
def list_min (l : List Int) : Option Int :=
  match l with
  | [] => none
  | x :: xs => some (xs.foldl min x)

/-- Python `max` over a list (raises = `none` on empty input). -/
def list_max (l : List Int) : Option Int :=
  match l with
  | [] => none
  | x :: xs => some (xs.foldl max x)

/-- `model.calculate_box`: `[x0, bottom, x1, top]` of a block of lines.
`none` models the `ValueError`/`IndexError` the source raises on an empty
block or an empty boundary line. -/
def calculate_box (lines : List Line) : Option (List Int) := do
  let withWords := lines.filter fun l => !l.words.isEmpty
  let x0 ← list_min (withWords.map fun l => (l.words.headD default).x0)
  let lastLine ← lines.getLast?
  let bw ← lastLine.words.head?
  let x1 ← list_max (withWords.map fun l => (l.words.getLastD default).x1)
  let firstLine ← lines.head?
  let tw ← firstLine.words.head?
  pure [x0, bw.bottom, x1, tw.top]

/-- The merged word of a dehyphenation step: the broken word's text with
its last TWO characters dropped (`text[0:-2]`, as in the source)
concatenated with the continuation word's text. -/
def merged_word (lastWord nextWord : Word) : Word :=
  { lastWord with
    text := String.mk (lastWord.text.data.dropLast.dropLast ++ nextWord.text.data) }

/-- The in-place line updates of one dehyphenation merge: line `index` gets
its last word replaced by the merged word, line `index + 1` loses its first
word. -/
def merge_update (ls : List Line) (index : Nat) (li li1 : Line)
    (lastWord nextWord : Word) : List Line :=
  (ls.set index ⟨li.words.dropLast ++ [merged_word lastWord nextWord]⟩).set
    (index + 1) ⟨li1.words.tail⟩

/-- One iteration of the `classifier.fix_word_breaks` loop at `index`:
if line `index` is non-empty and its last word ends in `'-'`, merge that
word with the first word of line `index + 1` and remove the continuation
word from line `index + 1`.  The `Nat` component counts merges
performed. -/
def fix_word_breaks_step (st : List Line × Nat) (index : Nat) :
    Option (List Line × Nat) := do
  let (ls, m) := st
  let li ← ls[index]?
  if li.words.isEmpty then pure (ls, m)
  else do
    let lastWord ← li.words.getLast?
    let li1 ← ls[index + 1]?
    let nextWord ← li1.words.head?
    let lastChar ← lastWord.text.data.getLast?
    if lastChar = '-' then
      pure (merge_update ls index li li1 lastWord nextWord, m + 1)
    else pure (ls, m)

/-- `classifier.fix_word_breaks`: iterates the repair step over
`range(len(lines) - 2)` (as in the source, so the final line pair is never
examined), returning the repaired lines and the number of merges. -/
def fix_word_breaks (lines : List Line) : Option (List Line × Nat) :=
  (List.range (lines.length - 2)).foldlM fix_word_breaks_step (lines, 0)

/-- `classifier.create_paragraph` (box first, then in-place repair, then
tokenization), instrumented with the merge count. -/
def create_paragraph (lines : List Line) : Option (Element × Nat) := do
  let box ← calculate_box lines
  let (fixed, m) ← fix_word_breaks lines
  pure (.paragraph (format_text ((fixed.map (·.words)).flatten)) box, m)

/-- One step of the `functools.reduce` in `classifier.grouped_paragraphs`. -/
def grouped_paragraphs_step (min_indent : Int) (paragraphs : List (List Line))
    (line : Line) : Option (List (List Line)) :=
  if paragraphs.isEmpty then some [[line]]
  else do
    let w ← line.words.head?
    if w.x0 ≥ min_indent + 2 then pure (paragraphs ++ [[line]])
    else pure (paragraphs.dropLast ++ [paragraphs.getLastD [] ++ [line]])

/-- `classifier.paragraph`: the paragraph fallback.  On an empty block the
source returns Python `None`; that value is never produced when called from
`classify_lines`, and is collapsed to `none` here. -/
def paragraph (lines : List Line) : Option (List Element × Nat) := do
  let firsts ← lines.mapM fun l => l.words.head?
  let min_indent ← list_min (firsts.map (·.x0))
  if min_indent ≥ 120 then do
    let (p, m) ← create_paragraph lines
    pure ([p], m)
  else do
    let groups ← lines.foldlM (grouped_paragraphs_step min_indent) []
    let ps ← groups.mapM create_paragraph
    pure (ps.map (·.1), (ps.map (·.2)).sum)

/-- `classifier.is_unordered_list_item`: the first character of the first
word is a bullet glyph.  `none` models the `IndexError` on an empty line or
an empty first-word text. -/
def is_unordered_list_item (line : Line) : Option Bool := do
  let fw ← line.words.head?
  let c0 ← fw.text.data.head?
  pure (c0 ∈ ['-', '*', '#', '>', '•'])

/-- `classifier.is_ordered_list_item`: `False` for a one-character first
word, else first character numeric and second character not alphabetic.
The second-character test is only reached when the first character is
numeric (Python's short-circuit `and`). -/
def is_ordered_list_item (line : Line) : Option Bool := do
  let fw ← line.words.head?
  if fw.text.length = 1 then pure false
  else do
    let c0 ← fw.text.data.head?
    if c0.isDigit then do
      let c1 ← fw.text.data[1]?
      pure (!c1.isAlpha)
    else pure false

/-- The list comprehension `[line for line in lines if starts_item(line)]`,
propagating a raise from the predicate. -/
def filter_lines (p : Line → Option Bool) : List Line → Option (List Line)
  | [] => some []
  | l :: ls => do
    let b ← p l
    let r ← filter_lines p ls
    pure (if b then l :: r else r)

/-- One step of the loop in `classifier.group_list_items`: a line in
`list_item_start` opens a new item; any other line is appended to the
current item, which is the last one of the accumulator — or the initial
orphan item that never enters the result when no start has been seen yet. -/
def group_list_items_step (starts : List Line) (acc : List (List Line))
    (l : Line) : List (List Line) :=
  if l ∈ starts then acc ++ [[l]]
  else
    match acc with
    | [] => []
    | _ => acc.dropLast ++ [acc.getLastD [] ++ [l]]

/-- `classifier.group_list_items`. -/
def group_list_items (lines : List Line) (list_item_start : List Line) :
    List (List Line) :=
  lines.foldl (group_list_items_step list_item_start) []

/-- `classifier.tokenize_list`: repair word breaks inside every item, build
each item's style runs, then compute the box of all (repaired) item lines.
Returns `(items, box)` plus the total merge count. -/
def tokenize_list (ol : List (List Line)) :
    Option (List (List FormattedText) × List Int × Nat) := do
  let fixed ← ol.mapM fix_word_breaks
  let items := fixed.map fun fm => format_text (((fm.1.map (·.words)).flatten))
  let box ← calculate_box (fixed.map (·.1)).flatten
  pure (items, box, (fixed.map (·.2)).sum)

/-- `classifier.is_all_caps`: no alphabetic character anywhere in the line
is lower case. -/
def is_all_caps (line : Line) : Bool :=
  line.words.all fun w => w.text.data.all fun c => !(c.isAlpha && c.isLower)

/-- `classifier.header_level`: h1 for bold and size > 20, h2 for medium and
size > 10, else h3 — all read off the first word. -/
def header_level (line : Line) : Option String := do
  let fw ← line.words.head?
  pure (if is_bold fw.fontname && fw.size > 20 then "h1"
        else if is_medium fw.fontname && fw.size > 10 then "h2"
        else "h3")

/-- `classifier.classify_header`. -/
def classify_header (line : Line) : Option Element := do
  let level ← header_level line
  let text := format_text line.words
  let box ← calculate_box [line]
  pure (.header level text box)

/-- The match condition of `classifier.try_header` on the block's first
line: `big or medium`, where `medium` requires size exactly 10 and every
word bold-or-medium, and `big` requires an all-caps line of size at least
10 whose first word is bold or medium. -/
def header_test (first : Line) (fw : Word) : Bool :=
  let medium := fw.size == 10 &&
    first.words.all fun w => is_medium w.fontname || is_bold w.fontname
  let big := is_all_caps first && fw.size ≥ 10 &&
    (is_bold fw.fontname || is_medium fw.fontname)
  big || medium

/-- `classifier.classify_lines`, fuel-indexed.  Dispatch priority is the
source's: header test on the first line, then ordered then unordered list
markers, then the paragraph fallback; recursion happens on the remaining
lines (header) or on the lines captured by no list item.  The `Nat`
component accumulates dehyphenation merges. -/
def classify_lines_fuel : Nat → List Line → Option (List Element × Nat)
  | 0, _ => none
  | _ + 1, [] => some ([], 0)
  | fuel + 1, first :: rest => do
    let fw ← first.words.head?
    if header_test first fw then do
      let h ← classify_header first
      if rest.isEmpty then pure ([h], 0)
      else do
        let (r, m) ← classify_lines_fuel fuel rest
        pure (h :: r, m)
    else do
      let lines := first :: rest
      let ordered ← filter_lines is_ordered_list_item lines
      if !ordered.isEmpty then do
        let ol := group_list_items lines ordered
        let items := ol.flatten
        let no_items := lines.filter fun l => !(items.contains l)
        let (list_items, box, m1) ← tokenize_list ol
        let (r, m2) ← classify_lines_fuel fuel no_items
        pure (r ++ [.listing "ordered" list_items box], m1 + m2)
      else do
        let unordered ← filter_lines is_unordered_list_item lines
        if !unordered.isEmpty then do
          let ol := group_list_items lines unordered
          let items := ol.flatten
          let no_items := lines.filter fun l => !(items.contains l)
          let (list_items, box, m1) ← tokenize_list ol
          let (r, m2) ← classify_lines_fuel fuel no_items
          pure (r ++ [.listing "unordered" list_items box], m1 + m2)
        else paragraph lines

/-- `classifier.classify_lines` with enough fuel for its recursion (each
recursive call strictly shrinks the line list). -/
def classify_lines (lines : List Line) : Option (List Element × Nat) :=
  classify_lines_fuel (lines.length + 1) lines

/-- `model.Document.all_elements`: elements and tables together, sorted by
`el.box[1]` (ascending, stably — Python `sorted`). -/
def Document.all_elements (d : Document) : List DocItem :=
  (d.elements.map DocItem.el ++ d.tables.map DocItem.table).mergeSort
    fun a b => a.box.getD 1 0 ≤ b.box.getD 1 0

/-- `classifier.Document.all_elements` (classifier.py lines 84-85): the
method body evaluates `sorted(...)` but has no `return` statement, so the
call returns Python `None` — the sorted list is discarded.  (When both
`elements` and `tables` are non-empty, CPython would instead raise
`TypeError` while comparing an element's list-valued key `el.box` with a
table's tuple-valued one; either way the sorted list is never returned.) -/
def classifier_all_elements (_d : Document) : Option (List DocItem) :=
  none

/-- `isinstance(el, Header)`. -/
def is_header_element : Element → Bool
  | .header _ _ _ => true
  | _ => false

/-- The `.level` attribute; only read on headers. -/
def Element.level : Element → String
  | .header lvl _ _ => lvl
  | _ => ""

/-- `Header.text()`: the space-joined texts of the formatted runs; only
read on headers. -/
def Element.text : Element → String
  | .header _ fts _ => join_space (fts.map (·.text))
  | _ => ""

/-- `Document.headers()`. -/
def Document.headers (d : Document) : List Element :=
  d.elements.filter is_header_element

/-- `any(header for header in document.headers() if header.level == 'h1')`. -/
def has_h1 (d : Document) : Bool :=
  d.headers.any fun e => e.level == "h1"

/-- `exporter.group_chapters`, with `model.Document.all_elements` semantics
for the emptiness test (the declared parameter type of `group_chapters`):
documents whose `all_elements()` is empty are skipped; a document with an
h1 header — or the first kept document — opens a new chapter; every other
kept document is appended to the current chapter. -/
def chapter_step (chapters : List (List Document)) (d : Document) :
    List (List Document) :=
  if d.all_elements.isEmpty then chapters
  else if has_h1 d || chapters.isEmpty then chapters ++ [[d]]
  else chapters.dropLast ++ [chapters.getLastD [] ++ [d]]

/-- `exporter.group_chapters` as a fold of `chapter_step` over the pages. -/
def group_chapters (documents : List Document) : List (List Document) :=
  documents.foldl chapter_step []

/-- `exporter.chapter_title`: `chapter[0].headers()[0].text()`; `none`
models the `IndexError` on an empty chapter or a first document without
headers. -/
def chapter_title (chapter : List Document) : Option String := do
  let d ← chapter.head?
  let h ← d.headers.head?
  pure h.text

/-- `str(index).rjust(2, '0')`. -/
def rjust_zero (s : String) (w : Nat) : String :=
  String.mk (List.replicate (w - s.data.length) '0' ++ s.data)

/-- `title.replace(' ', '-').lower()` (character-wise, as Python's
single-character replace and ASCII lower-casing behave). -/
def slugify (title : String) : String :=
  String.mk (title.data.map fun c => if c = ' ' then '-' else c.toLower)

/-- The file name `exporter.to_html` writes for chapter number `index`. -/
def chapter_file_name (index : Nat) (chapter : List Document) :
    Option String := do
  let title ← chapter_title chapter
  pure (rjust_zero (toString index) 2 ++ "-" ++ slugify title ++ ".html")

/-- `exporter.export`: one HTML file per chapter, in `enumerate` order;
this pure model returns the list of file names written. -/
def export_file_names (documents : List Document) : Option (List String) :=
  (group_chapters documents).enum.mapM fun p => chapter_file_name p.1 p.2

/-- An external pdfplumber bounding box `(x0, top, x1, bottom)`. -/
structure BBox where
  x0 : Int
  top : Int
  x1 : Int
  bottom : Int
deriving DecidableEq

/-- Modelled from the spec: the external extraction restricted to a
bounding box (`page.within_bbox(...)` + `extract_words`) yields exactly the
page's words whose own bounding box falls inside that region. -/
def word_inside (w : Word) (b : BBox) : Bool :=
  b.x0 ≤ w.x0 && w.x1 ≤ b.x1 && b.top ≤ w.top && w.bottom ≤ b.bottom

/-- `extractor.remove_tables`: starting from the page's word stream, for
every detected table re-extract the words inside its region and remove each
of them (first structural match, Python `list.remove`) from the stream if
still present. -/
def remove_tables (page_words : List Word) (tables : List BBox) : List Word :=
  tables.foldl
    (fun words t =>
      (page_words.filter fun w => word_inside w t).foldl
        (fun ws w => if w ∈ ws then ws.erase w else ws) words)
    page_words

/-- One step of the `functools.reduce` in `extractor.group_lines`. -/
def group_lines_step (lines : List (List Word)) (word : Word) :
    List (List Word) :=
  match lines.getLast? with
  | none => [[word]]
  | some line =>
    if ((line.getLastD default).bottom - word.bottom).natAbs ≤ 1 then
      lines.dropLast ++ [line ++ [word]]
    else lines ++ [[word]]

/-- `extractor.group_lines`. -/
def group_lines (words : List Word) : List Line :=
  (words.foldl group_lines_step []).map Line.mk

/-- `extractor.line_separation` (both lines produced by `group_lines` are
non-empty, so the `words[0]` reads cannot fail). -/
def line_separation (top_line bottom_line : Line) : Int :=
  (bottom_line.words.headD default).top - (top_line.words.headD default).bottom

/-- `extractor.detect_sections`. -/
def detect_sections (group : List (List Line)) (line : Line) :
    List (List Line) :=
  match group.getLast? with
  | none => [[line]]
  | some para =>
    if line_separation (para.getLastD default) line ≤ 2 then
      group.dropLast ++ [para ++ [line]]
    else group ++ [[line]]

/-- `extractor.group_sections` (a section is its list of lines). -/
def group_sections (lines : List Line) : List (List Line) :=
  lines.foldl detect_sections []

/-- The section part of `extractor.extract_text`: table words are removed
from the page's word stream, the rest is grouped into lines and then into
sections — these are the sections fed to the classifier. -/
def extract_text_sections (page_words : List Word) (tables : List BBox) :
    List (List Line) :=
  group_sections (group_lines (remove_tables page_words tables))

/-- Number of space-separated tokens of one style run's text — how many
words the run displays. -/
def ft_tokens (ft : FormattedText) : Nat :=
  (ft.text.data.splitOn ' ').length

/-- Total number of words displayed by one structural element. -/
def element_tokens : Element → Nat
  | .paragraph text _ => (text.map ft_tokens).sum
  | .listing _ items _ => (items.map fun i => (i.map ft_tokens).sum).sum
  | .header _ fts _ => (fts.map ft_tokens).sum

/-- Total number of words displayed by a list of elements. -/
def elements_tokens (els : List Element) : Nat :=
  (els.map element_tokens).sum

/-- Number of input words of a block of lines. -/
def total_words (lines : List Line) : Nat :=
  (lines.map fun l => l.words.length).sum

/-- The claim's paragraph grouping, spelled from the spec: the first line
opens the first paragraph; a later line opens a new paragraph exactly when
its indent is at least `min_indent + 2`; every other line joins the current
paragraph.  (The spec says "exceeds min_indent + 2"; the code tests
`>= min_indent + 2`, which this amended spec function follows.) -/
def spec_groups_go (min_indent : Int) (cur : List Line) :
    List Line → List (List Line)
  | [] => [cur]
  | l :: ls =>
    if (l.words.headD default).x0 ≥ min_indent + 2 then
      cur :: spec_groups_go min_indent [l] ls
    else spec_groups_go min_indent (cur ++ [l]) ls

/-- Paragraph grouping per the (amended) spec wording. -/
def spec_groups (min_indent : Int) : List Line → List (List Line)
  | [] => []
  | l :: ls => spec_groups_go min_indent [l] ls

/-- A well-formed block: every line non-empty (the spec's `Line`
invariant) and every word text non-empty (what the external word source
yields). -/
def wf_lines (lines : List Line) : Prop :=
  ∀ l ∈ lines, l.words ≠ [] ∧ ∀ w ∈ l.words, w.text.data ≠ []

instance (lines : List Line) : Decidable (wf_lines lines) := by
  unfold wf_lines; infer_instance

/-- Word texts free of spaces (true of every token the external word
source yields; needed to count displayed words by splitting on spaces). -/
def space_free (lines : List Line) : Prop :=
  ∀ l ∈ lines, ∀ w ∈ l.words, ' ' ∉ w.text.data

instance (lines : List Line) : Decidable (space_free lines) := by
  unfold space_free; infer_instance

/-! Concrete inputs used by the witnesses and counterexamples. -/

/-- Helper for building concrete words. -/
def mkw (t f : String) (s x0 x1 top bottom : Int) : Word :=
  ⟨t, f, s, x0, x1, top, bottom⟩

/-- A line ending in the hyphen-broken word `"cons-"`. -/
def l_cons : Line :=
  ⟨[mkw "las" "Book" 8 10 25 5 15, mkw "cons-" "Book" 8 26 40 5 15]⟩

/-- The follow-up line starting with the continuation word `"trucciones"`. -/
def l_truc : Line :=
  ⟨[mkw "trucciones" "Book" 8 10 50 20 30, mkw "del" "Book" 8 51 60 20 30]⟩

/-- A third line, so the pair above is examined by the repair loop at all. -/
def l_tail : Line := ⟨[mkw "juego" "Book" 8 10 30 35 45]⟩

/-- `l_cons` after the source's repair: `"cons-"[0:-2] + "trucciones"`. -/
def l_cons_fixed : Line :=
  ⟨[mkw "las" "Book" 8 10 25 5 15, mkw "contrucciones" "Book" 8 26 40 5 15]⟩

/-- `l_truc` with its first word removed by the repair. -/
def l_truc_fixed : Line := ⟨[mkw "del" "Book" 8 51 60 20 30]⟩

/-- A single line of size-10, medium-weight, mixed-case words. -/
def l_h2 : Line :=
  ⟨[mkw "Hola" "Font-Medium" 10 10 30 5 15,
    mkw "Mundo" "Font-Medium" 10 31 60 5 15]⟩

/-- A line with left indent 10. -/
def l_p1 : Line := ⟨[mkw "uno" "Book" 8 10 30 5 15]⟩

/-- A line with left indent 12 = 10 + 2: it does not exceed
`min_indent + 2`, yet the code starts a new paragraph at it. -/
def l_p2 : Line := ⟨[mkw "dos" "Book" 8 12 30 20 30]⟩

/-- A non-empty line whose only word has empty text. -/
def l_bad : Line := ⟨[mkw "" "Book" 5 10 30 5 15]⟩

/-- A line whose first word is the single-character numeric token `"7"`. -/
def l_seven : Line := ⟨[mkw "7" "Book" 8 10 30 5 15]⟩

/-- A concrete h1 header element. -/
def hdr1 : Element := .header "h1" [⟨"bold", "CAPITULO UNO"⟩] [10, 15, 60, 5]

/-- A concrete h2 header element. -/
def hdr2 : Element := .header "h2" [⟨"bold", "Intro"⟩] [10, 15, 60, 5]

/-- A concrete paragraph element. -/
def para1 : Element := .paragraph [⟨"normal", "texto"⟩] [10, 40, 60, 30]

/-- A document whose only element is an h1 header. -/
def docH1 : Document := ⟨[hdr1], []⟩

/-- A document with one paragraph and no h1. -/
def docP : Document := ⟨[para1], []⟩

/-- A document with no elements and no tables. -/
def docEmpty : Document := ⟨[], []⟩

/-- A document whose first header is an h2, with an h1 after it. -/
def docH2H1 : Document := ⟨[hdr2, hdr1], []⟩

/-! ## Generic list lemmas -/

theorem total_words_set (ls : List Line) (i : Nat) (l : Line)
    (h : i < ls.length) :
    total_words (ls.set i l) + (ls.getD i default).words.length =
      total_words ls + l.words.length := by
  induction ls generalizing i with
  | nil => simp at h
  | cons x xs ih =>
    cases i with
    | zero => simp [total_words, List.set]; omega
    | succ i =>
      have hi : i < xs.length := by simpa using h
      have := ih i hi
      simp only [total_words, List.set, List.getD_cons_succ, List.map_cons,
        List.sum_cons] at *
      omega

theorem total_words_append (a b : List Line) :
    total_words (a ++ b) = total_words a + total_words b := by
  simp [total_words]

theorem total_words_flatten (L : List (List Line)) :
    total_words L.flatten = (L.map total_words).sum := by
  induction L with
  | nil => simp [total_words]
  | cons x xs ih => simp [total_words_append, ih]

/-! ## `group_runs` -/

theorem group_runs_shape :
    ∀ (w : Word) (ws : List Word),
      ∃ g gs, group_runs (w :: ws) = (w :: g) :: gs
  | _, [] => ⟨[], [], rfl⟩
  | w, w' :: ws => by
    obtain ⟨g, gs, h⟩ := group_runs_shape w' ws
    unfold group_runs
    rw [h]
    by_cases hf : w.fontname = w'.fontname
    · exact ⟨w' :: g, gs, by simp [hf]⟩
    · exact ⟨[], (w' :: g) :: gs, by simp [hf]⟩

theorem flatten_group_runs : ∀ ws : List Word, (group_runs ws).flatten = ws
  | [] => rfl
  | [w] => rfl
  | w :: w' :: ws => by
    have ih := flatten_group_runs (w' :: ws)
    obtain ⟨g, gs, h⟩ := group_runs_shape w' ws
    unfold group_runs
    rw [h] at ih ⊢
    by_cases hf : w.fontname = w'.fontname <;> simp_all

theorem group_runs_ne_nil :
    ∀ ws : List Word, ∀ g ∈ group_runs ws, g ≠ []
  | [], _, hg => by simp [group_runs] at hg
  | [w], g, hg => by
    simp [group_runs] at hg
    simp [hg]
  | w :: w' :: ws, g, hg => by
    have ih := group_runs_ne_nil (w' :: ws)
    obtain ⟨g0, gs, h⟩ := group_runs_shape w' ws
    unfold group_runs at hg
    rw [h] at hg
    by_cases hf : w.fontname = w'.fontname <;> simp [hf] at hg
    · rcases hg with rfl | hg2
      · simp
      · exact ih g (by rw [h]; exact List.mem_cons_of_mem _ hg2)
    · rcases hg with rfl | rfl | hg2
      · simp
      · simp
      · exact ih g (by rw [h]; exact List.mem_cons_of_mem _ hg2)

/-! ## Token counting through `format_text` -/

theorem ft_tokens_format_text (ws : List Word)
    (h : ∀ w ∈ ws, ' ' ∉ w.text.data) :
    ((format_text ws).map ft_tokens).sum = ws.length := by
  unfold format_text
  rw [List.map_map]
  have hg : ∀ g ∈ group_runs ws,
      (ft_tokens ∘ fun g => FormattedText.mk
        (font_style (g.headD default).fontname)
        (join_space (g.map (·.text)))) g = g.length := by
    intro g hgmem
    have hne : g ≠ [] := group_runs_ne_nil ws g hgmem
    show ((join_space (g.map (·.text))).data.splitOn ' ').length = g.length
    unfold join_space
    rw [show (String.mk ([' '].intercalate ((g.map (·.text)).map String.data))).data
        = [' '].intercalate ((g.map (·.text)).map String.data) from rfl]
    rw [List.splitOn_intercalate]
    · simp
    · intro l hl
      simp only [List.map_map, List.mem_map] at hl
      obtain ⟨w, hw, rfl⟩ := hl
      exact h w (by rw [← flatten_group_runs ws]; exact List.mem_flatten.mpr ⟨g, hgmem, hw⟩)
    · simp [hne]
  rw [List.map_congr_left hg]
  rw [← List.length_flatten, flatten_group_runs]

/-! ## `fix_word_breaks`: conservation and preservation -/

theorem merge_update_conserv {ls : List Line} {i : Nat} {li li1 : Line}
    {lastW nextW : Word}
    (hli : ls[i]? = some li) (hli1 : ls[i + 1]? = some li1)
    (hiw : li.words ≠ []) (hnw : li1.words ≠ []) :
    total_words (merge_update ls i li li1 lastW nextW) + 1 = total_words ls ∧
      (merge_update ls i li li1 lastW nextW).length = ls.length := by
  have hi : i < ls.length := (List.getElem?_eq_some_iff.mp hli).1
  have hi1 : i + 1 < ls.length := (List.getElem?_eq_some_iff.mp hli1).1
  have hgetd : ls.getD i default = li := by simp [List.getD, hli]
  have hget1 : (ls.set i ⟨li.words.dropLast ++
      [merged_word lastW nextW]⟩).getD (i + 1) default = li1 := by
    simp [List.getD, List.getElem?_set_ne (by omega : i ≠ i + 1), hli1]
  have h1 := total_words_set ls i
    ⟨li.words.dropLast ++ [merged_word lastW nextW]⟩ hi
  have h2 := total_words_set
    (ls.set i ⟨li.words.dropLast ++ [merged_word lastW nextW]⟩)
    (i + 1) ⟨li1.words.tail⟩ (by simpa using hi1)
  rw [hgetd] at h1
  rw [hget1] at h2
  simp only at h1 h2
  have hlen1 : (li.words.dropLast ++ [merged_word lastW nextW]).length
      = li.words.length := by
    have := List.length_pos.mpr hiw
    simp [List.length_dropLast]
    omega
  have hlen2 : li1.words.tail.length = li1.words.length - 1 :=
    List.length_tail _
  have hpos : 0 < li1.words.length := List.length_pos.mpr hnw
  rw [hlen1] at h1
  rw [hlen2] at h2
  unfold merge_update
  constructor
  · omega
  · simp

theorem merge_update_space_free {ls : List Line} {i : Nat} {li li1 : Line}
    {lastW nextW : Word}
    (hli : ls[i]? = some li) (hli1 : ls[i + 1]? = some li1)
    (hlast : li.words.getLast? = some lastW)
    (hnext : li1.words.head? = some nextW)
    (hsf : space_free ls) :
    space_free (merge_update ls i li li1 lastW nextW) := by
  intro l hl w hw
  rcases List.mem_or_eq_of_mem_set hl with hmem | rfl
  · rcases List.mem_or_eq_of_mem_set hmem with hmem2 | rfl
    · exact hsf l hmem2 w hw
    · simp only at hw
      rcases List.mem_append.mp hw with hw2 | hw2
      · exact hsf li (List.getElem?_mem hli) w
          ((List.dropLast_sublist _).mem hw2)
      · have hwl : w = merged_word lastW nextW := by simpa using hw2
        subst hwl
        unfold merged_word
        simp only
        intro hsp
        rcases List.mem_append.mp hsp with hsp | hsp
        · exact hsf li (List.getElem?_mem hli) lastW
            (List.mem_of_mem_getLast? (by simp [hlast, Option.mem_def]))
            ((List.dropLast_sublist _).mem
              ((List.dropLast_sublist _).mem hsp))
        · exact hsf li1 (List.getElem?_mem hli1) nextW
            (List.mem_of_mem_head? (by simp [hnext, Option.mem_def])) hsp
  · simp only at hw
    exact hsf li1 (List.getElem?_mem hli1) w (List.mem_of_mem_tail hw)

theorem fix_step_conserv {ls : List Line} {m : Nat} {i : Nat}
    {ls' : List Line} {m' : Nat}
    (h : fix_word_breaks_step (ls, m) i = some (ls', m')) :
    total_words ls' + m' = total_words ls + m ∧ ls'.length = ls.length ∧
      (space_free ls → space_free ls') := by
  unfold fix_word_breaks_step at h
  simp only [Option.bind_eq_bind, Option.bind_eq_some] at h
  obtain ⟨li, hli, h⟩ := h
  by_cases hempty : li.words.isEmpty
  · simp [hempty] at h
    obtain ⟨rfl, rfl⟩ := h
    exact ⟨rfl, rfl, id⟩
  · simp only [hempty, Bool.false_eq_true, if_false, Option.bind_eq_bind,
      Option.bind_eq_some] at h
    obtain ⟨lastW, hlast, li1, hli1, nextW, hnext, lastC, hlastC, h⟩ := h
    have hiw : li.words ≠ [] := by simpa [List.isEmpty_iff] using hempty
    have hnw : li1.words ≠ [] := by
      intro hc; rw [hc] at hnext; simp at hnext
    by_cases hdash : lastC = '-'
    · simp only [hdash, if_true, pure, Option.some_inj] at h
      rw [Prod.ext_iff] at h
      obtain ⟨hls', hm'⟩ := h
      simp only at hls' hm'
      subst hls' hm'
      obtain ⟨c1, c2⟩ := @merge_update_conserv _ _ _ _ lastW nextW
        hli hli1 hiw hnw
      refine ⟨by omega, c2, ?_⟩
      exact merge_update_space_free hli hli1 hlast hnext
    · simp only [hdash, if_false, pure, Option.some_inj] at h
      rw [Prod.ext_iff] at h
      obtain ⟨hls', hm'⟩ := h
      simp only at hls' hm'
      subst hls' hm'
      exact ⟨rfl, rfl, id⟩

theorem fix_fold_conserv :
    ∀ (idxs : List Nat) (st st' : List Line × Nat),
      idxs.foldlM fix_word_breaks_step st = some st' →
      total_words st'.1 + st'.2 = total_words st.1 + st.2 ∧
        st'.1.length = st.1.length ∧
        (space_free st.1 → space_free st'.1)
  | [], st, st', h => by
    simp [List.foldlM] at h
    subst h
    exact ⟨rfl, rfl, id⟩
  | i :: idxs, st, st', h => by
    simp only [List.foldlM_cons, Option.bind_eq_bind, Option.bind_eq_some] at h
    obtain ⟨st1, h1, h2⟩ := h
    obtain ⟨c1, c2, c3⟩ := @fix_step_conserv st.1 st.2 i st1.1 st1.2
      (by rw [← h1])
    obtain ⟨d1, d2, d3⟩ := fix_fold_conserv idxs st1 st' h2
    exact ⟨by omega, by omega, fun hsf => d3 (c3 hsf)⟩

theorem fix_word_breaks_conserv {lines ls' : List Line} {m' : Nat}
    (h : fix_word_breaks lines = some (ls', m')) :
    total_words ls' + m' = total_words lines ∧ ls'.length = lines.length ∧
      (space_free lines → space_free ls') := by
  have := fix_fold_conserv (List.range (lines.length - 2)) (lines, 0)
    (ls', m') h
  simpa using this

/-! ## `group_list_items` -/

theorem dropLast_concat_getLastD {α : Type} :
    ∀ (l : List α) (d : α), l ≠ [] → l.dropLast ++ [l.getLastD d] = l
  | [], _, h => absurd rfl h
  | [_], _, _ => rfl
  | a :: b :: t, d, _ => by
    have := dropLast_concat_getLastD (b :: t) d (by simp)
    simpa using this

theorem group_list_items_fold (starts : List Line) :
    ∀ (ls : List Line) (acc : List (List Line)),
      ∃ s, (ls.foldl (group_list_items_step starts) acc).flatten =
          acc.flatten ++ s ∧ List.Sublist s ls ∧ ∀ x ∈ ls, x ∈ starts → x ∈ s
  | [], acc => ⟨[], by simp, List.nil_sublist _, by simp⟩
  | l :: ls, acc => by
    rw [List.foldl_cons]
    by_cases h : l ∈ starts
    · obtain ⟨s', h1, h2, h3⟩ :=
        group_list_items_fold starts ls (acc ++ [[l]])
      refine ⟨l :: s', ?_, h2.cons₂ l, ?_⟩
      · rw [show group_list_items_step starts acc l = acc ++ [[l]] by
          simp [group_list_items_step, h]]
        rw [h1]
        simp [List.flatten_append]
      · intro x hx _
        rcases List.mem_cons.mp hx with rfl | hx2
        · exact List.mem_cons_self _ _
        · exact List.mem_cons_of_mem _ (h3 x hx2 ‹x ∈ starts›)
    · rcases acc with _ | ⟨a, as⟩
      · obtain ⟨s', h1, h2, h3⟩ := group_list_items_fold starts ls []
        refine ⟨s', ?_, h2.cons l, ?_⟩
        · rw [show group_list_items_step starts [] l = [] by
            simp [group_list_items_step, h]]
          simpa using h1
        · intro x hx hxs
          rcases List.mem_cons.mp hx with rfl | hx2
          · exact absurd hxs h
          · exact h3 x hx2 hxs
      · obtain ⟨s', h1, h2, h3⟩ := group_list_items_fold starts ls
          ((a :: as).dropLast ++ [(a :: as).getLastD [] ++ [l]])
        have hne : (a :: as) ≠ [] := by simp
        refine ⟨l :: s', ?_, h2.cons₂ l, ?_⟩
        · rw [show group_list_items_step starts (a :: as) l =
            (a :: as).dropLast ++ [(a :: as).getLastD [] ++ [l]] by
            simp [group_list_items_step, h]]
          rw [h1]
          rw [List.flatten_append]
          conv_rhs => rw [← dropLast_concat_getLastD (a :: as) [] hne]
          simp [List.flatten_append]
        · intro x hx hxs
          rcases List.mem_cons.mp hx with rfl | hx2
          · exact List.mem_cons_self _ _
          · exact List.mem_cons_of_mem _ (h3 x hx2 hxs)

theorem group_list_items_flatten_sublist (lines starts : List Line) :
    List.Sublist (group_list_items lines starts).flatten lines ∧
      ∀ x ∈ lines, x ∈ starts → x ∈ (group_list_items lines starts).flatten := by
  obtain ⟨s, h1, h2, h3⟩ := group_list_items_fold starts lines []
  unfold group_list_items
  rw [h1]
  simpa using ⟨h2, h3⟩

theorem group_list_items_ne_nil (lines starts : List Line) :
    ∀ g ∈ group_list_items lines starts, g ≠ [] := by
  suffices h : ∀ (ls : List Line) (acc : List (List Line)),
      (∀ g ∈ acc, g ≠ []) →
      ∀ g ∈ ls.foldl (group_list_items_step starts) acc, g ≠ [] by
    exact h lines [] (by simp)
  intro ls
  induction ls with
  | nil => intro acc hacc g hg; exact hacc g hg
  | cons l ls ih =>
    intro acc hacc g hg
    rw [List.foldl_cons] at hg
    refine ih _ ?_ g hg
    intro g' hg'
    unfold group_list_items_step at hg'
    by_cases h : l ∈ starts
    · rw [if_pos h] at hg'
      rcases List.mem_append.mp hg' with hg2 | hg2
      · exact hacc g' hg2
      · simp at hg2; simp [hg2]
    · rw [if_neg h] at hg'
      rcases hacc2 : acc with _ | ⟨a, as⟩
      · rw [hacc2] at hg'; simp at hg'
      · rw [hacc2] at hg'
        rcases List.mem_append.mp hg' with hg2 | hg2
        · exact hacc g' (by rw [hacc2]; exact (List.dropLast_sublist _).mem hg2)
        · simp at hg2; simp [hg2]

/-! ## Sublists of `Nodup` lists recovered by `filter` -/

theorem filter_mem_of_sublist {s l : List Line} (hs : List.Sublist s l)
    (hn : l.Nodup) : l.filter (fun x => decide (x ∈ s)) = s := by
  induction hs with
  | slnil => simp
  | @cons l₁ l₂ a hs ih =>
    have hnd := List.nodup_cons.mp hn
    have ha : a ∉ l₁ := fun hc => hnd.1 (hs.mem hc)
    simp only [List.filter_cons, decide_eq_true_eq]
    rw [if_neg (by simpa using ha)]
    exact ih hnd.2
  | @cons₂ l₁ l₂ a hs ih =>
    have hnd := List.nodup_cons.mp hn
    simp only [List.filter_cons, decide_eq_true_eq]
    rw [if_pos (List.mem_cons_self _ _)]
    congr 1
    rw [List.filter_congr (fun x hx => ?_)]
    · exact ih hnd.2
    · simp only [decide_eq_true_eq, List.mem_cons]
      have : x ≠ a := fun hc => hnd.1 (hc ▸ hx)
      simp [this]

theorem total_words_filter_partition (l : List Line) (p : Line → Bool) :
    total_words (l.filter p) + total_words (l.filter fun x => !p x) =
      total_words l := by
  induction l with
  | nil => simp [total_words]
  | cons x xs ih =>
    by_cases h : p x <;>
      simp [List.filter_cons, h, total_words, List.sum_cons] at * <;> omega

/-! ## The paragraph grouping fold equals the spec grouping -/

theorem spec_groups_go_cons (mi : Int) (cur : List Line) (l : Line)
    (ls : List Line) :
    spec_groups_go mi cur (l :: ls) =
      if (l.words.headD default).x0 ≥ mi + 2 then
        cur :: spec_groups_go mi [l] ls
      else spec_groups_go mi (cur ++ [l]) ls := by
  rw [spec_groups_go]

theorem grouped_fold_spec (mi : Int) :
    ∀ (ls : List Line) (gs : List (List Line)) (cur : List Line),
      (∀ l ∈ ls, l.words ≠ []) →
      ls.foldlM (grouped_paragraphs_step mi) (gs ++ [cur]) =
        some (gs ++ spec_groups_go mi cur ls)
  | [], gs, cur, _ => by simp [spec_groups_go]
  | l :: ls, gs, cur, h => by
    have hw : l.words ≠ [] := (h l (List.mem_cons_self _ _))
    obtain ⟨w, ws, hws⟩ := List.exists_cons_of_ne_nil hw
    have hstep : grouped_paragraphs_step mi (gs ++ [cur]) l =
        some (if w.x0 ≥ mi + 2 then (gs ++ [cur]) ++ [[l]]
              else gs ++ [cur ++ [l]]) := by
      unfold grouped_paragraphs_step
      rw [if_neg (by simp)]
      rw [hws]
      simp only [List.head?_cons, Option.bind_eq_bind, Option.some_bind]
      by_cases hx : w.x0 ≥ mi + 2
      · rw [if_pos hx, if_pos hx]; rfl
      · rw [if_neg hx, if_neg hx]
        simp [pure]
    rw [List.foldlM_cons, hstep]
    simp only [Option.bind_eq_bind, Option.some_bind]
    have hrest : ∀ l' ∈ ls, l'.words ≠ [] :=
      fun l' hl' => h l' (List.mem_cons_of_mem _ hl')
    by_cases hx : w.x0 ≥ mi + 2
    · rw [if_pos hx]
      have := grouped_fold_spec mi ls (gs ++ [cur]) [l] hrest
      rw [this]
      have hhd : (l.words.headD default).x0 = w.x0 := by rw [hws]; rfl
      rw [show spec_groups_go mi cur (l :: ls) =
          cur :: spec_groups_go mi [l] ls by
        rw [spec_groups_go_cons, if_pos (by rw [hhd]; exact hx)]]
      simp
    · rw [if_neg hx]
      have := grouped_fold_spec mi ls gs (cur ++ [l]) hrest
      rw [this]
      have hhd : (l.words.headD default).x0 = w.x0 := by rw [hws]; rfl
      rw [show spec_groups_go mi cur (l :: ls) =
          spec_groups_go mi (cur ++ [l]) ls by
        rw [spec_groups_go_cons, if_neg (by rw [hhd]; exact hx)]]

theorem grouped_fold_eq_spec_groups (mi : Int) (lines : List Line)
    (h : ∀ l ∈ lines, l.words ≠ []) :
    lines.foldlM (grouped_paragraphs_step mi) [] =
      some (spec_groups mi lines) := by
  rcases lines with _ | ⟨l, ls⟩
  · simp [spec_groups]
  · rw [List.foldlM_cons]
    rw [show grouped_paragraphs_step mi [] l = some [[l]] by
      unfold grouped_paragraphs_step; rw [if_pos (by simp)]]
    simp only [Option.bind_eq_bind, Option.some_bind]
    have := grouped_fold_spec mi ls [] [l]
      (fun l' hl' => h l' (List.mem_cons_of_mem _ hl'))
    simpa [spec_groups] using this

theorem spec_groups_go_flatten (mi : Int) :
    ∀ (ls : List Line) (cur : List Line),
      (spec_groups_go mi cur ls).flatten = cur ++ ls
  | [], cur => by simp [spec_groups_go]
  | l :: ls, cur => by
    unfold spec_groups_go
    by_cases hx : (l.words.headD default).x0 ≥ mi + 2
    · rw [if_pos hx]
      simp [spec_groups_go_flatten mi ls [l]]
    · rw [if_neg hx]
      simp [spec_groups_go_flatten mi ls (cur ++ [l])]

theorem spec_groups_flatten (mi : Int) (lines : List Line) :
    (spec_groups mi lines).flatten = lines := by
  rcases lines with _ | ⟨l, ls⟩
  · rfl
  · unfold spec_groups
    simpa using spec_groups_go_flatten mi ls [l]

/-! ## Word-count conservation through classification -/

theorem total_words_eq_flatten_length (ls : List Line) :
    total_words ls = ((ls.map (·.words)).flatten).length := by
  simp [total_words, List.length_flatten, List.map_map]
  rfl

theorem space_free_flatten_words {ls : List Line} (hsf : space_free ls) :
    ∀ w ∈ (ls.map (·.words)).flatten, ' ' ∉ w.text.data := by
  intro w hw
  rw [List.mem_flatten] at hw
  obtain ⟨wsl, hwsl, hw2⟩ := hw
  rw [List.mem_map] at hwsl
  obtain ⟨l, hl, rfl⟩ := hwsl
  exact hsf l hl w hw2

theorem create_paragraph_conserv {lines : List Line} {el : Element} {m : Nat}
    (hsf : space_free lines)
    (h : create_paragraph lines = some (el, m)) :
    element_tokens el + m = total_words lines := by
  unfold create_paragraph at h
  simp only [Option.bind_eq_bind, Option.bind_eq_some] at h
  obtain ⟨box, hbox, fm, hfm, h⟩ := h
  simp only [pure, Option.some_inj] at h
  rw [Prod.ext_iff] at h
  obtain ⟨hel, hm⟩ := h
  simp only at hel hm
  subst hel hm
  obtain ⟨c1, _, c3⟩ := fix_word_breaks_conserv (by rw [← hfm])
  have hsf' : space_free fm.1 := c3 hsf
  have htok : element_tokens
      (Element.paragraph (format_text ((fm.1.map (·.words)).flatten)) box) =
      ((fm.1.map (·.words)).flatten).length := by
    unfold element_tokens
    exact ft_tokens_format_text _ (space_free_flatten_words hsf')
  rw [htok, ← total_words_eq_flatten_length]
  omega

theorem grouped_fold_flatten (mi : Int) :
    ∀ (ls : List Line) (acc gs : List (List Line)),
      ls.foldlM (grouped_paragraphs_step mi) acc = some gs →
      gs.flatten = acc.flatten ++ ls
  | [], acc, gs, h => by
    simp [List.foldlM] at h
    subst h
    simp
  | l :: ls, acc, gs, h => by
    rw [List.foldlM_cons] at h
    simp only [Option.bind_eq_bind, Option.bind_eq_some] at h
    obtain ⟨acc', hstep, hrest⟩ := h
    have hflat : acc'.flatten = acc.flatten ++ [l] := by
      unfold grouped_paragraphs_step at hstep
      by_cases hemp : acc.isEmpty
      · rw [if_pos hemp] at hstep
        have : acc = [] := List.isEmpty_iff.mp hemp
        subst this
        simp only [Option.some_inj] at hstep
        subst hstep
        simp
      · rw [if_neg hemp] at hstep
        simp only [Option.bind_eq_bind, Option.bind_eq_some] at hstep
        obtain ⟨w, _, hstep⟩ := hstep
        have hne : acc ≠ [] := fun hc => hemp (by simp [hc])
        by_cases hx : w.x0 ≥ mi + 2
        · rw [if_pos hx] at hstep
          simp only [pure, Option.some_inj] at hstep
          subst hstep
          simp
        · rw [if_neg hx] at hstep
          simp only [pure, Option.some_inj] at hstep
          subst hstep
          rw [List.flatten_append]
          conv_rhs => rw [← dropLast_concat_getLastD acc [] hne]
          simp [List.flatten_append]
    have := grouped_fold_flatten mi ls acc' gs hrest
    rw [this, hflat]
    simp

theorem mapM_create_paragraph_conserv :
    ∀ (gs : List (List Line)) (ps : List (Element × Nat)),
      (∀ g ∈ gs, space_free g) →
      gs.mapM create_paragraph = some ps →
      ((ps.map (·.1)).map element_tokens).sum + (ps.map (·.2)).sum =
        (gs.map total_words).sum
  | [], ps, _, h => by
    rw [List.mapM_nil] at h
    simp only [pure, Option.some_inj] at h
    subst h
    simp
  | g :: gs, ps, hsf, h => by
    rw [List.mapM_cons] at h
    simp only [Option.bind_eq_bind, Option.bind_eq_some] at h
    obtain ⟨p, hp, ps', hps', h⟩ := h
    simp only [pure, Option.some_inj] at h
    subst h
    have h1 := create_paragraph_conserv (hsf g (List.mem_cons_self _ _))
      (by rw [hp])
    have h2 := mapM_create_paragraph_conserv gs ps'
      (fun g' hg' => hsf g' (List.mem_cons_of_mem _ hg')) hps'
    simp only [List.map_cons, List.sum_cons]
    omega

theorem paragraph_conserv {lines : List Line} {els : List Element} {m : Nat}
    (hsf : space_free lines)
    (h : paragraph lines = some (els, m)) :
    elements_tokens els + m = total_words lines := by
  unfold paragraph at h
  simp only [Option.bind_eq_bind, Option.bind_eq_some] at h
  obtain ⟨firsts, _, mi, _, h⟩ := h
  by_cases hmi : mi ≥ 120
  · rw [if_pos hmi] at h
    simp only [Option.bind_eq_bind, Option.bind_eq_some] at h
    obtain ⟨pm, hpm, h⟩ := h
    simp only [pure, Option.some_inj] at h
    rw [Prod.ext_iff] at h
    obtain ⟨hel, hm⟩ := h
    simp only at hel hm
    subst hel hm
    have := create_paragraph_conserv hsf (by rw [hpm])
    simpa [elements_tokens] using this
  · rw [if_neg hmi] at h
    simp only [Option.bind_eq_bind, Option.bind_eq_some] at h
    obtain ⟨gs, hgs, ps, hps, h⟩ := h
    simp only [pure, Option.some_inj] at h
    rw [Prod.ext_iff] at h
    obtain ⟨hel, hm⟩ := h
    simp only at hel hm
    subst hel hm
    have hflat : gs.flatten = lines := by
      simpa using grouped_fold_flatten mi lines [] gs hgs
    have hsfg : ∀ g ∈ gs, space_free g := by
      intro g hg l hl w hw
      exact hsf l (by rw [← hflat]; exact List.mem_flatten.mpr ⟨g, hg, hl⟩) w hw
    have := mapM_create_paragraph_conserv gs ps hsfg hps
    rw [show total_words lines = (gs.map total_words).sum by
      rw [← hflat, total_words_flatten]]
    unfold elements_tokens
    omega

theorem mapM_fix_conserv :
    ∀ (ol : List (List Line)) (fixed : List (List Line × Nat)),
      (∀ g ∈ ol, space_free g) →
      ol.mapM fix_word_breaks = some fixed →
      ((fixed.map fun fm =>
          ((format_text ((fm.1.map (·.words)).flatten)).map ft_tokens).sum).sum
        + (fixed.map (·.2)).sum = (ol.map total_words).sum)
  | [], fixed, _, h => by
    rw [List.mapM_nil] at h
    simp only [pure, Option.some_inj] at h
    subst h
    simp
  | g :: ol, fixed, hsf, h => by
    rw [List.mapM_cons] at h
    simp only [Option.bind_eq_bind, Option.bind_eq_some] at h
    obtain ⟨fm, hfm, fixed', hfixed', h⟩ := h
    simp only [pure, Option.some_inj] at h
    subst h
    obtain ⟨c1, _, c3⟩ := fix_word_breaks_conserv (by rw [hfm])
    have hsf' : space_free fm.1 := c3 (hsf g (List.mem_cons_self _ _))
    have htok : ((format_text ((fm.1.map (·.words)).flatten)).map ft_tokens).sum
        = total_words fm.1 := by
      rw [ft_tokens_format_text _ (space_free_flatten_words hsf'),
        ← total_words_eq_flatten_length]
    have h2 := mapM_fix_conserv ol fixed'
      (fun g' hg' => hsf g' (List.mem_cons_of_mem _ hg')) hfixed'
    simp only [List.map_cons, List.sum_cons]
    rw [htok]
    omega

theorem tokenize_list_conserv {ol : List (List Line)}
    {items : List (List FormattedText)} {box : List Int} {m : Nat}
    (hsf : ∀ g ∈ ol, space_free g)
    (h : tokenize_list ol = some (items, box, m)) :
    (items.map fun i => (i.map ft_tokens).sum).sum + m =
      (ol.map total_words).sum := by
  unfold tokenize_list at h
  simp only [Option.bind_eq_bind, Option.bind_eq_some] at h
  obtain ⟨fixed, hfixed, bx, hbx, h⟩ := h
  simp only [pure, Option.some_inj] at h
  rw [Prod.ext_iff] at h
  obtain ⟨hitems, h2⟩ := h
  rw [Prod.ext_iff] at h2
  obtain ⟨hbox2, hm⟩ := h2
  simp only at hitems hbox2 hm
  subst hitems hm
  have := mapM_fix_conserv ol fixed hsf hfixed
  rw [List.map_map] at *
  convert this using 2

theorem spec_groups_ne_nil (mi : Int) (lines : List Line) :
    ∀ g ∈ spec_groups mi lines, g ≠ [] := by
  suffices h : ∀ (ls cur : List Line), cur ≠ [] →
      ∀ g ∈ spec_groups_go mi cur ls, g ≠ [] by
    rcases lines with _ | ⟨l, ls⟩
    · simp [spec_groups]
    · exact h ls [l] (by simp)
  intro ls
  induction ls with
  | nil =>
    intro cur hcur g hg
    simp [spec_groups_go] at hg
    simpa [hg] using hcur
  | cons l ls ih =>
    intro cur hcur g hg
    unfold spec_groups_go at hg
    by_cases hx : (l.words.headD default).x0 ≥ mi + 2
    · rw [if_pos hx] at hg
      rcases List.mem_cons.mp hg with rfl | hg2
      · exact hcur
      · exact ih [l] (by simp) g hg2
    · rw [if_neg hx] at hg
      exact ih (cur ++ [l]) (by simp) g hg

theorem classify_header_tokens {line : Line} {el : Element}
    (hsf : ∀ w ∈ line.words, ' ' ∉ w.text.data)
    (h : classify_header line = some el) :
    element_tokens el = line.words.length := by
  unfold classify_header at h
  simp only [Option.bind_eq_bind, Option.bind_eq_some] at h
  obtain ⟨lvl, _, box, _, h⟩ := h
  simp only [pure, Option.some_inj] at h
  subst h
  unfold element_tokens
  exact ft_tokens_format_text _ hsf

theorem classify_list_branch_conserv (fuel : Nat)
    (ih : ∀ (lines : List Line) (els : List Element) (m : Nat),
      lines.Nodup → space_free lines →
      classify_lines_fuel fuel lines = some (els, m) →
      elements_tokens els + m = total_words lines)
    {lines starts : List Line} {kind : String}
    {list_items : List (List FormattedText)} {box : List Int}
    {r : List Element} {m1 m2 : Nat}
    (hnd : lines.Nodup) (hsf : space_free lines)
    (htok : tokenize_list (group_list_items lines starts) =
      some (list_items, box, m1))
    (hrec : classify_lines_fuel fuel
        (lines.filter fun l =>
          !((group_list_items lines starts).flatten.contains l)) =
      some (r, m2)) :
    elements_tokens (r ++ [.listing kind list_items box]) + (m1 + m2) =
      total_words lines := by
  obtain ⟨hsub, _⟩ := group_list_items_flatten_sublist lines starts
  have hfeq : lines.filter
      (fun x => decide (x ∈ (group_list_items lines starts).flatten)) =
      (group_list_items lines starts).flatten :=
    filter_mem_of_sublist hsub hnd
  have hpred : (fun l =>
      !((group_list_items lines starts).flatten.contains l)) =
      fun l => !decide (l ∈ (group_list_items lines starts).flatten) := by
    funext l
    simp [List.contains]
  have hpart := total_words_filter_partition lines
    (fun x => decide (x ∈ (group_list_items lines starts).flatten))
  rw [hfeq] at hpart
  rw [hpred] at hrec
  have hsfol : ∀ g ∈ group_list_items lines starts, space_free g := by
    intro g hg l hl w hw
    have : l ∈ (group_list_items lines starts).flatten :=
      List.mem_flatten.mpr ⟨g, hg, hl⟩
    exact hsf l (hsub.mem this) w hw
  have hc1 := tokenize_list_conserv hsfol htok
  have hfl : ((group_list_items lines starts).map total_words).sum =
      total_words (group_list_items lines starts).flatten :=
    (total_words_flatten _).symm
  have hndf : (lines.filter fun l =>
      !decide (l ∈ (group_list_items lines starts).flatten)).Nodup :=
    hnd.filter _
  have hsff : space_free (lines.filter fun l =>
      !decide (l ∈ (group_list_items lines starts).flatten)) := by
    intro l hl w hw
    exact hsf l (List.mem_of_mem_filter hl) w hw
  have hc2 := ih _ _ _ hndf hsff hrec
  have htoklist : element_tokens (Element.listing kind list_items box) =
      (list_items.map fun i => (i.map ft_tokens).sum).sum := rfl
  have happ : elements_tokens (r ++ [Element.listing kind list_items box]) =
      elements_tokens r + element_tokens (Element.listing kind list_items box) := by
    simp [elements_tokens]
  rw [happ, htoklist]
  omega

theorem classify_fuel_conserv :
    ∀ (fuel : Nat) (lines : List Line) (els : List Element) (m : Nat),
      lines.Nodup → space_free lines →
      classify_lines_fuel fuel lines = some (els, m) →
      elements_tokens els + m = total_words lines := by
  intro fuel
  induction fuel with
  | zero =>
    intro lines els m _ _ h
    simp [classify_lines_fuel] at h
  | succ fuel ih =>
    intro lines els m hnd hsf h
    match lines with
    | [] =>
      rw [classify_lines_fuel] at h
      simp only [Option.some_inj] at h
      rw [Prod.ext_iff] at h
      obtain ⟨h1, h2⟩ := h
      simp only at h1 h2
      subst h1 h2
      simp [elements_tokens, total_words]
    | first :: rest =>
      rw [classify_lines_fuel] at h
      simp only [Option.bind_eq_bind, Option.bind_eq_some] at h
      obtain ⟨fw, hfw, h⟩ := h
      have hndr : rest.Nodup := (List.nodup_cons.mp hnd).2
      have hsfr : space_free rest :=
        fun l hl w hw => hsf l (List.mem_cons_of_mem _ hl) w hw
      split at h
      · -- header branch
        simp only [Option.bind_eq_bind, Option.bind_eq_some] at h
        obtain ⟨hel, hhel, h⟩ := h
        have htokh := classify_header_tokens
          (hsf first (List.mem_cons_self _ _)) hhel
        split at h
        · simp only [pure, Option.some_inj] at h
          rw [Prod.ext_iff] at h
          obtain ⟨h1, h2⟩ := h
          simp only at h1 h2
          subst h1 h2
          have hre : rest = [] := List.isEmpty_iff.mp (by assumption)
          subst hre
          simp [elements_tokens, total_words, htokh]
        · simp only [Option.bind_eq_bind, Option.bind_eq_some] at h
          obtain ⟨rm, hrm, h⟩ := h
          obtain ⟨r, m2⟩ := rm
          simp only [pure, Option.some_inj] at h
          rw [Prod.ext_iff] at h
          obtain ⟨h1, h2⟩ := h
          simp only at h1 h2
          subst h1 h2
          have := ih rest r m2 hndr hsfr hrm
          simp only [elements_tokens, total_words, List.map_cons,
            List.sum_cons] at *
          omega
      · -- list / paragraph branches
        simp only [Option.bind_eq_bind, Option.bind_eq_some] at h
        obtain ⟨ordered, hord, h⟩ := h
        split at h
        · simp only [Option.bind_eq_bind, Option.bind_eq_some] at h
          obtain ⟨ibm, hib, h⟩ := h
          obtain ⟨list_items, box, m1⟩ := ibm
          simp only [Option.bind_eq_bind, Option.bind_eq_some] at h
          obtain ⟨rm, hrm, h⟩ := h
          obtain ⟨r, m2⟩ := rm
          simp only [pure, Option.some_inj] at h
          rw [Prod.ext_iff] at h
          obtain ⟨h1, h2⟩ := h
          simp only at h1 h2
          subst h1 h2
          exact classify_list_branch_conserv fuel ih hnd hsf hib hrm
        · simp only [Option.bind_eq_bind, Option.bind_eq_some] at h
          obtain ⟨uno, huno, h⟩ := h
          split at h
          · simp only [Option.bind_eq_bind, Option.bind_eq_some] at h
            obtain ⟨ibm, hib, h⟩ := h
            obtain ⟨list_items, box, m1⟩ := ibm
            simp only [Option.bind_eq_bind, Option.bind_eq_some] at h
            obtain ⟨rm, hrm, h⟩ := h
            obtain ⟨r, m2⟩ := rm
            simp only [pure, Option.some_inj] at h
            rw [Prod.ext_iff] at h
            obtain ⟨h1, h2⟩ := h
            simp only at h1 h2
            subst h1 h2
            exact classify_list_branch_conserv fuel ih hnd hsf hib hrm
          · exact paragraph_conserv hsf h

/-! ## Totality of `fix_word_breaks` on well-formed input -/

/-- The loop invariant of `fix_word_breaks` before processing `index = i`:
the length is unchanged, every line after position `i` is still the
original, position `i` is the original line or that line with its first
word removed by the previous merge, and position 0 keeps its word count. -/
def fix_inv (orig ls : List Line) (i : Nat) : Prop :=
  ls.length = orig.length ∧
  (∀ j, i < j → ls.getD j default = orig.getD j default) ∧
  ((ls.getD i default).words = (orig.getD i default).words ∨
    (ls.getD i default).words = (orig.getD i default).words.tail) ∧
  (ls.getD 0 default).words.length = (orig.getD 0 default).words.length

theorem getD_mem {ls : List Line} {i : Nat} (h : i < ls.length) :
    ls.getD i default ∈ ls := by
  rw [List.getD_eq_getElem?_getD, List.getElem?_eq_getElem h]
  simp only [Option.getD_some]
  exact List.getElem_mem h

theorem getElem?_eq_some_getD {ls : List Line} {i : Nat}
    (h : i < ls.length) : ls[i]? = some (ls.getD i default) := by
  rw [List.getD_eq_getElem?_getD, List.getElem?_eq_getElem h]
  rfl

theorem fix_step_total {orig ls : List Line} {m i : Nat}
    (hwf : wf_lines orig) (hinv : fix_inv orig ls i)
    (hi : i + 2 < orig.length) :
    ∃ ls' m', fix_word_breaks_step (ls, m) i = some (ls', m') ∧
      fix_inv orig ls' (i + 1) := by
  obtain ⟨hlen, hafter, hat, hzero⟩ := hinv
  have hilt : i < ls.length := by omega
  have hi1lt : i + 1 < ls.length := by omega
  have hli : ls[i]? = some (ls.getD i default) := getElem?_eq_some_getD hilt
  have hli1 : ls[i + 1]? = some (ls.getD (i + 1) default) :=
    getElem?_eq_some_getD hi1lt
  have hnext_orig : ls.getD (i + 1) default = orig.getD (i + 1) default :=
    hafter (i + 1) (by omega)
  have horig_mem : orig.getD (i + 1) default ∈ orig :=
    getD_mem (by omega)
  have hnext_ne : (ls.getD (i + 1) default).words ≠ [] := by
    rw [hnext_orig]
    exact (hwf _ horig_mem).1
  set li := ls.getD i default with hli_def
  unfold fix_word_breaks_step
  simp only [Option.bind_eq_bind, hli, Option.some_bind]
  by_cases hemp : li.words.isEmpty
  · rw [if_pos hemp]
    refine ⟨ls, m, rfl, hlen, fun j hj => hafter j (by omega), ?_, hzero⟩
    exact .inl (hafter (i + 1) (by omega) ▸ rfl)
  · rw [if_neg hemp]
    have hwne : li.words ≠ [] := fun hc => hemp (by simp [hc])
    obtain ⟨lastW, hlastW⟩ : ∃ w, li.words.getLast? = some w :=
      ⟨li.words.getLast hwne, List.getLast?_eq_getLast li.words hwne⟩
    have hlast_mem : lastW ∈ li.words := by
      exact List.mem_of_mem_getLast? (by simp [hlastW, Option.mem_def])
    have hlast_orig_mem : lastW ∈ (orig.getD i default).words := by
      rcases hat with hcase | hcase
      · rw [hcase] at hlast_mem
        exact hlast_mem
      · rw [hcase] at hlast_mem
        exact List.mem_of_mem_tail hlast_mem
    have hmem_i : orig.getD i default ∈ orig := getD_mem (by omega)
    have htext_ne : lastW.text.data ≠ [] :=
      (hwf _ hmem_i).2 lastW hlast_orig_mem
    obtain ⟨lastC, hlastC⟩ : ∃ c, lastW.text.data.getLast? = some c :=
      ⟨_, List.getLast?_eq_getLast lastW.text.data htext_ne⟩
    obtain ⟨nextW, hnextW⟩ : ∃ w, (ls.getD (i + 1) default).words.head? =
        some w := by
      rcases hh : (ls.getD (i + 1) default).words with _ | ⟨w, ws⟩
      · exact absurd hh hnext_ne
      · exact ⟨w, by simp⟩
    simp only [hlastW, Option.some_bind, hli1, hnextW, hlastC]
    by_cases hdash : lastC = '-'
    · rw [if_pos hdash]
      refine ⟨_, m + 1, rfl, ?_, ?_, ?_, ?_⟩
      · simp [merge_update, hlen]
      · intro j hj
        unfold merge_update
        rw [List.getD_eq_getElem?_getD,
          List.getElem?_set_ne (by omega : i + 1 ≠ j),
          List.getElem?_set_ne (by omega : i ≠ j),
          ← List.getD_eq_getElem?_getD]
        exact hafter j (by omega)
      · refine .inr ?_
        unfold merge_update
        rw [List.getD_eq_getElem?_getD,
          List.getElem?_set_self (by simpa using hi1lt), ← hnext_orig]
        rfl
      · unfold merge_update
        rw [List.getD_eq_getElem?_getD,
          List.getElem?_set_ne (by omega : i + 1 ≠ 0)]
        by_cases hizero : i = 0
        · subst hizero
          rw [List.getElem?_set_self (by omega)]
          have hlz : li.words.length = (orig.getD 0 default).words.length := by
            rw [hli_def]
            exact hzero
          have hwpos : 0 < li.words.length := List.length_pos.mpr hwne
          rw [List.getD_eq_getElem?_getD] at hlz
          simp only [Option.getD_some]
          simp [List.length_dropLast]
          omega
        · rw [List.getElem?_set_ne (by omega : i ≠ 0),
            ← List.getD_eq_getElem?_getD]
          exact hzero
    · rw [if_neg hdash]
      refine ⟨ls, m, rfl, hlen, fun j hj => hafter j (by omega), ?_, hzero⟩
      exact .inl (hafter (i + 1) (by omega) ▸ rfl)

theorem fix_fold_total {orig : List Line} (hwf : wf_lines orig) :
    ∀ (cnt i : Nat) (st : List Line × Nat),
      i + cnt + 2 = orig.length →
      fix_inv orig st.1 i →
      ∃ st', (List.range' i cnt).foldlM fix_word_breaks_step st = some st' ∧
        fix_inv orig st'.1 (i + cnt)
  | 0, i, st, _, hinv => ⟨st, by simp, by simpa using hinv⟩
  | cnt + 1, i, st, hsum, hinv => by
    obtain ⟨ls', m', hstep, hinv'⟩ :=
      @fix_step_total orig st.1 st.2 i hwf hinv (by omega)
    obtain ⟨st', hfold, hinv''⟩ := fix_fold_total hwf cnt (i + 1) (ls', m')
      (by omega) hinv'
    refine ⟨st', ?_, by
      have : i + (cnt + 1) = i + 1 + cnt := by omega
      rw [this]; exact hinv''⟩
    rw [List.range'_succ, List.foldlM_cons]
    have hst : fix_word_breaks_step st i = some (ls', m') := by
      obtain ⟨a, b⟩ := st
      exact hstep
    rw [hst]
    simpa using hfold

theorem headD_eq_getD_zero (ls : List Line) :
    ls.headD default = ls.getD 0 default := by
  cases ls <;> simp [List.getD]

theorem fix_word_breaks_total {lines : List Line} (hwf : wf_lines lines) :
    ∃ ls' m, fix_word_breaks lines = some (ls', m) ∧
      ls'.length = lines.length ∧
      (ls'.headD default).words.length = (lines.headD default).words.length ∧
      ls'.getLast? = lines.getLast? := by
  by_cases hn : lines.length ≤ 2
  · refine ⟨lines, 0, ?_, rfl, rfl, rfl⟩
    unfold fix_word_breaks
    have : lines.length - 2 = 0 := by omega
    rw [this]
    simp [List.foldlM]
  · have hn3 : 3 ≤ lines.length := by omega
    have hinv0 : fix_inv lines lines 0 :=
      ⟨rfl, fun _ _ => rfl, .inl rfl, rfl⟩
    obtain ⟨st', hfold, hinv'⟩ := fix_fold_total hwf (lines.length - 2) 0
      (lines, 0) (by omega) hinv0
    obtain ⟨hlen, hafter, _, hzero⟩ := hinv'
    refine ⟨st'.1, st'.2, ?_, hlen, ?_, ?_⟩
    · unfold fix_word_breaks
      rw [List.range_eq_range']
      simpa using hfold
    · rw [headD_eq_getD_zero, headD_eq_getD_zero]
      exact hzero
    · have hj := hafter (lines.length - 1) (by omega)
      have h1 : st'.1.getLast? = st'.1[lines.length - 1]? := by
        rw [List.getLast?_eq_getElem?, hlen]
      have h2 : lines.getLast? = lines[lines.length - 1]? := by
        rw [List.getLast?_eq_getElem?]
      rw [h1, h2]
      rw [getElem?_eq_some_getD (by omega),
        getElem?_eq_some_getD (by omega), hj]

/-! ## Totality of the block-level helpers on well-formed input -/

theorem list_min_total {l : List Int} (h : l ≠ []) :
    ∃ v, list_min l = some v := by
  rcases l with _ | ⟨x, xs⟩
  · exact absurd rfl h
  · exact ⟨_, rfl⟩

theorem list_max_total {l : List Int} (h : l ≠ []) :
    ∃ v, list_max l = some v := by
  rcases l with _ | ⟨x, xs⟩
  · exact absurd rfl h
  · exact ⟨_, rfl⟩

theorem headD_mem {ls : List Line} (h : ls ≠ []) :
    ls.headD default ∈ ls := by
  rcases ls with _ | ⟨x, xs⟩
  · exact absurd rfl h
  · simp

theorem getLastD_mem {ls : List Line} (h : ls ≠ []) :
    ls.getLastD default ∈ ls := by
  rw [List.getLastD_eq_getLast?, List.getLast?_eq_getLast _ h]
  simp only [Option.getD_some]
  exact List.getLast_mem h

theorem calculate_box_total {lines : List Line} (hne : lines ≠ [])
    (hhead : (lines.headD default).words ≠ [])
    (hlast : (lines.getLastD default).words ≠ []) :
    ∃ b, calculate_box lines = some b := by
  have hmemh : lines.headD default ∈ lines := headD_mem hne
  have hfiltmem : lines.headD default ∈
      lines.filter (fun l => !l.words.isEmpty) :=
    List.mem_filter.mpr ⟨hmemh, by simpa using hhead⟩
  have hfne : lines.filter (fun l => !l.words.isEmpty) ≠ [] :=
    List.ne_nil_of_mem hfiltmem
  obtain ⟨x0, hx0⟩ := @list_min_total
    ((lines.filter (fun l => !l.words.isEmpty)).map
      fun l => (l.words.headD default).x0) (by simpa using hfne)
  obtain ⟨x1, hx1⟩ := @list_max_total
    ((lines.filter (fun l => !l.words.isEmpty)).map
      fun l => (l.words.getLastD default).x1) (by simpa using hfne)
  obtain ⟨ll, hll⟩ : ∃ x, lines.getLast? = some x :=
    ⟨_, List.getLast?_eq_getLast _ hne⟩
  have hlleq : ll = lines.getLastD default := by
    rw [List.getLastD_eq_getLast?, hll]
    rfl
  obtain ⟨bw, hbw⟩ : ∃ w, ll.words.head? = some w := by
    rw [hlleq]
    rcases hh : (lines.getLastD default).words with _ | ⟨w, ws⟩
    · exact absurd hh hlast
    · exact ⟨w, rfl⟩
  obtain ⟨fl, hfl⟩ : ∃ x, lines.head? = some x := by
    rcases lines with _ | ⟨x, xs⟩
    · exact absurd rfl hne
    · exact ⟨x, rfl⟩
  have hfleq : fl = lines.headD default := by
    rw [List.headD_eq_head?_getD, hfl]
    rfl
  obtain ⟨tw, htw⟩ : ∃ w, fl.words.head? = some w := by
    rw [hfleq]
    rcases hh : (lines.headD default).words with _ | ⟨w, ws⟩
    · exact absurd hh hhead
    · exact ⟨w, rfl⟩
  refine ⟨[x0, bw.bottom, x1, tw.top], ?_⟩
  unfold calculate_box
  simp only [Option.bind_eq_bind, hx0, Option.some_bind, hll, hbw, hx1,
    hfl, htw]
  rfl

theorem classify_header_total {line : Line} (hne : line.words ≠ []) :
    ∃ el, classify_header line = some el := by
  obtain ⟨fw, rest, hfw⟩ := List.exists_cons_of_ne_nil hne
  have hhl : ∃ lvl, header_level line = some lvl := by
    unfold header_level
    rw [hfw]
    exact ⟨_, rfl⟩
  obtain ⟨lvl, hlvl⟩ := hhl
  obtain ⟨box, hbox⟩ := @calculate_box_total [line] (by simp)
    (by simpa using hne) (by simpa using hne)
  refine ⟨.header lvl (format_text line.words) box, ?_⟩
  unfold classify_header
  rw [hlvl]
  simp only [Option.bind_eq_bind, Option.some_bind]
  rw [hbox]
  simp only [Option.some_bind]
  rfl

theorem is_ordered_list_item_total {l : Line} (hw : l.words ≠ [])
    (ht : ∀ w ∈ l.words, w.text.data ≠ []) :
    ∃ b, is_ordered_list_item l = some b := by
  obtain ⟨fw, rest, hfw⟩ := List.exists_cons_of_ne_nil hw
  have hfwmem : fw ∈ l.words := by rw [hfw]; exact List.mem_cons_self _ _
  have htne : fw.text.data ≠ [] := ht fw hfwmem
  unfold is_ordered_list_item
  rw [hfw]
  simp only [List.head?_cons, Option.bind_eq_bind, Option.some_bind]
  by_cases hlen : fw.text.length = 1
  · rw [if_pos hlen]
    exact ⟨false, rfl⟩
  · rw [if_neg hlen]
    obtain ⟨c, cs, hcs⟩ := List.exists_cons_of_ne_nil htne
    rw [hcs]
    simp only [List.head?_cons, Option.some_bind]
    by_cases hdig : c.isDigit
    · rw [if_pos hdig]
      have hlen2 : 2 ≤ (c :: cs).length := by
        have h1 : fw.text.length = (c :: cs).length := by
          rw [← hcs]
          rfl
        rw [h1] at hlen
        rcases cs with _ | ⟨c2, cs2⟩
        · simp at hlen
        · simp

      obtain ⟨c1, hc1⟩ : ∃ x, (c :: cs)[1]? = some x := by
        rw [List.getElem?_eq_getElem (by omega)]
        exact ⟨_, rfl⟩
      rw [hc1]
      simp only [Option.some_bind]
      exact ⟨_, rfl⟩
    · rw [if_neg hdig]
      exact ⟨false, rfl⟩

theorem is_unordered_list_item_total {l : Line} (hw : l.words ≠ [])
    (ht : ∀ w ∈ l.words, w.text.data ≠ []) :
    ∃ b, is_unordered_list_item l = some b := by
  obtain ⟨fw, rest, hfw⟩ := List.exists_cons_of_ne_nil hw
  have hfwmem : fw ∈ l.words := by rw [hfw]; exact List.mem_cons_self _ _
  have htne : fw.text.data ≠ [] := ht fw hfwmem
  obtain ⟨c, cs, hcs⟩ := List.exists_cons_of_ne_nil htne
  unfold is_unordered_list_item
  rw [hfw]
  simp only [List.head?_cons, Option.bind_eq_bind, Option.some_bind]
  rw [hcs]
  simp only [List.head?_cons, Option.some_bind]
  exact ⟨_, rfl⟩

theorem filter_lines_total {p : Line → Option Bool} :
    ∀ (ls : List Line), (∀ l ∈ ls, ∃ b, p l = some b) →
      ∃ r, filter_lines p ls = some r ∧ List.Sublist r ls
  | [], _ => ⟨[], rfl, List.Sublist.slnil⟩
  | l :: ls, h => by
    obtain ⟨b, hb⟩ := h l (List.mem_cons_self _ _)
    obtain ⟨r, hr, hsub⟩ := filter_lines_total ls
      (fun l' hl' => h l' (List.mem_cons_of_mem _ hl'))
    refine ⟨if b then l :: r else r, ?_, ?_⟩
    · unfold filter_lines
      rw [hb]
      simp only [Option.bind_eq_bind, Option.some_bind]
      rw [hr]
      simp only [Option.some_bind]
      rfl
    · cases b
      · simpa using hsub.cons l
      · simpa using hsub.cons₂ l

theorem mapM_head_total :
    ∀ (ls : List Line), (∀ l ∈ ls, l.words ≠ []) →
      ∃ ws, ls.mapM (fun l => l.words.head?) = some ws ∧
        ws.length = ls.length
  | [], _ => ⟨[], by rw [List.mapM_nil]; rfl, rfl⟩
  | l :: ls, h => by
    have hw : l.words ≠ [] := h l (List.mem_cons_self _ _)
    obtain ⟨fw, rest, hfw⟩ := List.exists_cons_of_ne_nil hw
    obtain ⟨ws, hws, hlen⟩ := mapM_head_total ls
      (fun l' hl' => h l' (List.mem_cons_of_mem _ hl'))
    refine ⟨fw :: ws, ?_, by simp [hlen]⟩
    rw [List.mapM_cons]
    rw [show l.words.head? = some fw by rw [hfw]; rfl]
    simp only [Option.bind_eq_bind, Option.some_bind]
    rw [hws]
    simp only [Option.some_bind]
    rfl

theorem create_paragraph_total {lines : List Line} (hne : lines ≠ [])
    (hwf : wf_lines lines) :
    ∃ pm, create_paragraph lines = some pm := by
  obtain ⟨box, hbox⟩ := calculate_box_total hne
    ((hwf _ (headD_mem hne)).1) ((hwf _ (getLastD_mem hne)).1)
  obtain ⟨ls', mm, hfix, _, _, _⟩ := fix_word_breaks_total hwf
  refine ⟨(.paragraph (format_text ((ls'.map (·.words)).flatten)) box, mm), ?_⟩
  unfold create_paragraph
  rw [hbox]
  simp only [Option.bind_eq_bind, Option.some_bind]
  rw [hfix]
  simp only [Option.some_bind]
  rfl

theorem mapM_cp_total :
    ∀ (gs : List (List Line)), (∀ g ∈ gs, g ≠ [] ∧ wf_lines g) →
      ∃ ps, gs.mapM create_paragraph = some ps
  | [], _ => ⟨[], by rw [List.mapM_nil]; rfl⟩
  | g :: gs, h => by
    obtain ⟨hg1, hg2⟩ := h g (List.mem_cons_self _ _)
    obtain ⟨pm, hpm⟩ := create_paragraph_total hg1 hg2
    obtain ⟨ps, hps⟩ := mapM_cp_total gs
      (fun g' hg' => h g' (List.mem_cons_of_mem _ hg'))
    refine ⟨pm :: ps, ?_⟩
    rw [List.mapM_cons, hpm]
    simp only [Option.bind_eq_bind, Option.some_bind]
    rw [hps]
    simp only [Option.some_bind]
    rfl

theorem paragraph_total {lines : List Line} (hne : lines ≠ [])
    (hwf : wf_lines lines) :
    ∃ res, paragraph lines = some res := by
  obtain ⟨ws, hws, hwslen⟩ := mapM_head_total lines
    (fun l hl => (hwf l hl).1)
  have hwsne : ws.map (·.x0) ≠ [] := by
    have : ws ≠ [] := by
      intro hc
      rw [hc] at hwslen
      exact hne (List.length_eq_zero.mp hwslen.symm)
    simpa using this
  obtain ⟨mi, hmi⟩ := list_min_total hwsne
  unfold paragraph
  rw [hws]
  simp only [Option.bind_eq_bind, Option.some_bind]
  rw [hmi]
  simp only [Option.some_bind]
  by_cases hge : mi ≥ 120
  · rw [if_pos hge]
    obtain ⟨pm, hpm⟩ := create_paragraph_total hne hwf
    rw [hpm]
    simp only [Option.some_bind]
    exact ⟨_, rfl⟩
  · rw [if_neg hge]
    rw [grouped_fold_eq_spec_groups mi lines (fun l hl => (hwf l hl).1)]
    simp only [Option.some_bind]
    obtain ⟨ps, hps⟩ := mapM_cp_total (spec_groups mi lines)
      (fun g hg => ⟨spec_groups_ne_nil mi lines g hg, fun l hl =>
        hwf l (by rw [← spec_groups_flatten mi lines]
                  exact List.mem_flatten.mpr ⟨g, hg, hl⟩)⟩)
    rw [hps]
    simp only [Option.some_bind]
    exact ⟨_, rfl⟩

/-! ## Totality of `tokenize_list` and `classify_lines` -/

/-- What one `fix_word_breaks` run preserves of an item, for the box
computation of `tokenize_list`. -/
def fix_rel (g : List Line) (fm : List Line × Nat) : Prop :=
  fm.1.length = g.length ∧
  (fm.1.headD default).words.length = (g.headD default).words.length ∧
  fm.1.getLast? = g.getLast?

theorem mapM_fix_total :
    ∀ (ol : List (List Line)), (∀ g ∈ ol, wf_lines g) →
      ∃ fixed, ol.mapM fix_word_breaks = some fixed ∧
        List.Forall₂ fix_rel ol fixed
  | [], _ => ⟨[], by rw [List.mapM_nil]; rfl, List.Forall₂.nil⟩
  | g :: ol, h => by
    obtain ⟨ls', mm, hfix, h1, h2, h3⟩ :=
      fix_word_breaks_total (h g (List.mem_cons_self _ _))
    obtain ⟨fixed, hfixed, hrel⟩ := mapM_fix_total ol
      (fun g' hg' => h g' (List.mem_cons_of_mem _ hg'))
    refine ⟨(ls', mm) :: fixed, ?_, List.Forall₂.cons ⟨h1, h2, h3⟩ hrel⟩
    rw [List.mapM_cons, hfix]
    simp only [Option.bind_eq_bind, Option.some_bind]
    rw [hfixed]
    simp only [Option.some_bind]
    rfl

theorem flatten_ne_nil_of_head {L : List (List Line)} {g : List Line}
    {Ls : List (List Line)} (hL : L = g :: Ls) (hg : g ≠ []) :
    L.flatten ≠ [] := by
  subst hL
  simp [hg]

theorem flatten_fix_getLast? :
    ∀ (ol : List (List Line)) (fixed : List (List Line × Nat)),
      List.Forall₂ fix_rel ol fixed → (∀ g ∈ ol, g ≠ []) →
      ((fixed.map (·.1)).flatten).getLast? = ol.flatten.getLast?
  | [], [], _, _ => rfl
  | g :: ol, fm :: fixed, h, hne => by
    obtain ⟨hgf, hrest⟩ := List.forall₂_cons.mp h
    rcases ol with _ | ⟨g2, olr⟩
    · have : fixed = [] := by cases hrest; rfl
      subst this
      simpa using hgf.2.2
    · rcases fixed with _ | ⟨fm2, fr⟩
      · cases hrest
      · have ihl := flatten_fix_getLast? (g2 :: olr) (fm2 :: fr) hrest
          (fun g' hg' => hne g' (List.mem_cons_of_mem _ hg'))
        have hg2ne : g2 ≠ [] := hne g2 (by simp)
        have holfne : ((g2 :: olr) : List (List Line)).flatten ≠ [] :=
          flatten_ne_nil_of_head rfl hg2ne
        obtain ⟨x, hx⟩ : ∃ x, ((g2 :: olr) : List (List Line)).flatten.getLast?
            = some x := ⟨_, List.getLast?_eq_getLast _ holfne⟩
        simp only [List.map_cons, List.flatten_cons,
          List.getLast?_append] at ihl hx ⊢
        rw [ihl, hx]
        simp

theorem tokenize_list_total {ol : List (List Line)} (hne : ol ≠ [])
    (hgne : ∀ g ∈ ol, g ≠ []) (hwf : ∀ g ∈ ol, wf_lines g) :
    ∃ t, tokenize_list ol = some t := by
  obtain ⟨fixed, hfixed, hrel⟩ := mapM_fix_total ol hwf
  rcases ol with _ | ⟨g0, olr⟩
  · exact absurd rfl hne
  · rcases fixed with _ | ⟨fm0, fr⟩
    · cases hrel
    · obtain ⟨hgf0, hrest⟩ := List.forall₂_cons.mp hrel
      have hg0ne : g0 ≠ [] := hgne g0 (by simp)
      have hfm0ne : fm0.1 ≠ [] := by
        intro hc
        have h1 := hgf0.1
        rw [hc] at h1
        exact hg0ne (List.length_eq_zero.mp h1.symm)
      obtain ⟨hh, hhs, hfm0eq⟩ := List.exists_cons_of_ne_nil hfm0ne
      have hflat_cons : ((fm0 :: fr).map
            (fun p : List Line × Nat => p.1)).flatten =
          hh :: (hhs ++ (fr.map (fun p : List Line × Nat => p.1)).flatten) := by
        simp [hfm0eq]
      have hheadw : ((((fm0 :: fr).map
            (fun p : List Line × Nat => p.1)).flatten.headD default).words)
          ≠ [] := by
        rw [hflat_cons]
        simp only [List.headD_eq_head?_getD, List.head?_cons, Option.getD_some]
        have h1 : fm0.1.headD default = hh := by rw [hfm0eq]; rfl
        have h2 := hgf0.2.1
        rw [h1] at h2
        have h3 : (g0.headD default).words ≠ [] :=
          (hwf g0 (by simp) (g0.headD default) (headD_mem hg0ne)).1
        intro hc
        rw [hc] at h2
        simp only [List.length_nil] at h2
        exact h3 (List.length_eq_zero.mp h2.symm)
      have hlast? := flatten_fix_getLast? (g0 :: olr) (fm0 :: fr) hrel hgne
      have holflatne : ((g0 :: olr) : List (List Line)).flatten ≠ [] :=
        flatten_ne_nil_of_head rfl hg0ne
      obtain ⟨lastl, hlastl⟩ : ∃ x,
          ((g0 :: olr) : List (List Line)).flatten.getLast? = some x :=
        ⟨_, List.getLast?_eq_getLast _ holflatne⟩
      have hlastmem : lastl ∈ ((g0 :: olr) : List (List Line)).flatten :=
        List.mem_of_mem_getLast? (Option.mem_def.mpr hlastl)
      have hlastw : lastl.words ≠ [] := by
        rw [List.mem_flatten] at hlastmem
        obtain ⟨g, hg, hmem⟩ := hlastmem
        exact (hwf g hg lastl hmem).1
      have hFlne : ((fm0 :: fr).map
          (fun p : List Line × Nat => p.1)).flatten ≠ [] := by
        rw [hflat_cons]
        simp
      have hFlast : ((((fm0 :: fr).map
          (fun p : List Line × Nat => p.1)).flatten.getLastD default).words)
          ≠ [] := by
        rw [List.getLastD_eq_getLast?, hlast?, hlastl]
        exact hlastw
      obtain ⟨box, hbox⟩ := calculate_box_total hFlne hheadw hFlast
      refine ⟨((fm0 :: fr).map fun fm =>
          format_text ((fm.1.map (fun l : Line => l.words)).flatten), box,
          ((fm0 :: fr).map (fun p : List Line × Nat => p.2)).sum), ?_⟩
      unfold tokenize_list
      rw [hfixed]
      simp only [Option.bind_eq_bind, Option.some_bind]
      rw [hbox]
      simp only [Option.some_bind]
      rfl

theorem classify_fuel_total :
    ∀ (fuel : Nat) (lines : List Line),
      lines.length < fuel → wf_lines lines →
      ∃ res, classify_lines_fuel fuel lines = some res := by
  intro fuel
  induction fuel with
  | zero =>
    intro lines h _
    omega
  | succ fuel ih =>
    intro lines hlen hwf
    match lines with
    | [] => exact ⟨([], 0), by rw [classify_lines_fuel]⟩
    | first :: rest =>
      have hfw : first.words ≠ [] := (hwf first (List.mem_cons_self _ _)).1
      obtain ⟨fw, fws, hfweq⟩ := List.exists_cons_of_ne_nil hfw
      have hfwhead : first.words.head? = some fw := by rw [hfweq]; rfl
      rw [classify_lines_fuel]
      simp only [Option.bind_eq_bind, hfwhead, Option.some_bind]
      have hwords : ∀ l ∈ first :: rest, l.words ≠ [] :=
        fun l hl => (hwf l hl).1
      have htexts : ∀ l ∈ first :: rest, ∀ w ∈ l.words, w.text.data ≠ [] :=
        fun l hl => (hwf l hl).2
      by_cases hcond : header_test first fw
      · rw [if_pos hcond]
        obtain ⟨hel, hhel⟩ := classify_header_total hfw
        rw [hhel]
        simp only [Option.some_bind]
        by_cases hre : rest.isEmpty
        · rw [if_pos hre]
          exact ⟨_, rfl⟩
        · rw [if_neg hre]
          have hr : rest.length < fuel := by
            simp only [List.length_cons] at hlen
            omega
          obtain ⟨⟨r, m2⟩, hres⟩ := ih rest hr
            (fun l hl => hwf l (List.mem_cons_of_mem _ hl))
          rw [hres]
          simp only [Option.some_bind]
          exact ⟨_, rfl⟩
      · rw [if_neg hcond]
        obtain ⟨ord, hord, hordsub⟩ := @filter_lines_total
          is_ordered_list_item (first :: rest)
          (fun l hl => is_ordered_list_item_total (hwords l hl) (htexts l hl))
        rw [hord]
        simp only [Option.some_bind]
        rcases ord with _ | ⟨o, os⟩
        · rw [if_neg (by simp)]
          obtain ⟨uno, huno, hunosub⟩ := @filter_lines_total
            is_unordered_list_item (first :: rest)
            (fun l hl => is_unordered_list_item_total (hwords l hl)
              (htexts l hl))
          rw [huno]
          simp only [Option.some_bind]
          rcases uno with _ | ⟨u, us⟩
          · rw [if_neg (by simp)]
            exact paragraph_total (by simp) hwf
          · rw [if_pos (by simp)]
            have hu_lines : u ∈ first :: rest :=
              hunosub.mem (List.mem_cons_self _ _)
            have hu_items : u ∈
                (group_list_items (first :: rest) (u :: us)).flatten :=
              (group_list_items_flatten_sublist (first :: rest) (u :: us)).2
                u hu_lines (List.mem_cons_self _ _)
            have holne : group_list_items (first :: rest) (u :: us) ≠ [] := by
              intro hc
              rw [hc] at hu_items
              simp at hu_items
            have hItems_sub :=
              (group_list_items_flatten_sublist (first :: rest) (u :: us)).1
            have hg_wf : ∀ g ∈ group_list_items (first :: rest) (u :: us),
                wf_lines g := fun g hg l hl =>
              hwf l (hItems_sub.mem (List.mem_flatten.mpr ⟨g, hg, hl⟩))
            obtain ⟨⟨list_items, box, m1⟩, htok⟩ := tokenize_list_total holne
              (group_list_items_ne_nil _ _) hg_wf
            rw [htok]
            simp only [Option.some_bind]
            have hfiltlt : ((first :: rest).filter fun l =>
                !((group_list_items (first :: rest) (u :: us)).flatten.contains
                  l)).length < (first :: rest).length := by
              have hle := List.length_filter_le (fun l =>
                !((group_list_items (first :: rest)
                  (u :: us)).flatten.contains l)) (first :: rest)
              have hneq : ¬ (((first :: rest).filter fun l =>
                  !((group_list_items (first :: rest)
                    (u :: us)).flatten.contains l)).length
                  = (first :: rest).length) := by
                intro he
                have hall := List.filter_length_eq_length.mp he u hu_lines
                have hcont : ((group_list_items (first :: rest)
                    (u :: us)).flatten).contains u = true :=
                  List.elem_eq_true_of_mem hu_items
                rw [hcont] at hall
                simp at hall
              omega
            obtain ⟨⟨r, m2⟩, hrec⟩ := ih ((first :: rest).filter fun l =>
                !((group_list_items (first :: rest)
                  (u :: us)).flatten.contains l))
              (by
                simp only [List.length_cons] at hlen hfiltlt
                omega)
              (fun l hl => hwf l (List.mem_of_mem_filter hl))
            rw [hrec]
            simp only [Option.some_bind]
            exact ⟨_, rfl⟩
        · rw [if_pos (by simp)]
          have ho_lines : o ∈ first :: rest :=
            hordsub.mem (List.mem_cons_self _ _)
          have ho_items : o ∈
              (group_list_items (first :: rest) (o :: os)).flatten :=
            (group_list_items_flatten_sublist (first :: rest) (o :: os)).2
              o ho_lines (List.mem_cons_self _ _)
          have holne : group_list_items (first :: rest) (o :: os) ≠ [] := by
            intro hc
            rw [hc] at ho_items
            simp at ho_items
          have hItems_sub :=
            (group_list_items_flatten_sublist (first :: rest) (o :: os)).1
          have hg_wf : ∀ g ∈ group_list_items (first :: rest) (o :: os),
              wf_lines g := fun g hg l hl =>
            hwf l (hItems_sub.mem (List.mem_flatten.mpr ⟨g, hg, hl⟩))
          obtain ⟨⟨list_items, box, m1⟩, htok⟩ := tokenize_list_total holne
            (group_list_items_ne_nil _ _) hg_wf
          rw [htok]
          simp only [Option.some_bind]
          have hfiltlt : ((first :: rest).filter fun l =>
              !((group_list_items (first :: rest) (o :: os)).flatten.contains
                l)).length < (first :: rest).length := by
            have hle := List.length_filter_le (fun l =>
              !((group_list_items (first :: rest)
                (o :: os)).flatten.contains l)) (first :: rest)
            have hneq : ¬ (((first :: rest).filter fun l =>
                !((group_list_items (first :: rest)
                  (o :: os)).flatten.contains l)).length
                = (first :: rest).length) := by
              intro he
              have hall := List.filter_length_eq_length.mp he o ho_lines
              have hcont : ((group_list_items (first :: rest)
                  (o :: os)).flatten).contains o = true :=
                List.elem_eq_true_of_mem ho_items
              rw [hcont] at hall
              simp at hall
            omega
          obtain ⟨⟨r, m2⟩, hrec⟩ := ih ((first :: rest).filter fun l =>
              !((group_list_items (first :: rest)
                (o :: os)).flatten.contains l))
            (by
              simp only [List.length_cons] at hlen hfiltlt
              omega)
            (fun l hl => hwf l (List.mem_of_mem_filter hl))
          rw [hrec]
          simp only [Option.some_bind]
          exact ⟨_, rfl⟩

/-! ## `remove_tables`: removed words never reappear -/

theorem remove_pass_count :
    ∀ (L ws : List Word) (v : Word),
      List.count v
        (L.foldl (fun ws w => if w ∈ ws then ws.erase w else ws) ws) =
        List.count v ws - List.count v L
  | [], ws, v => by simp
  | w :: L, ws, v => by
    rw [List.foldl_cons, remove_pass_count L _ v, List.count_cons]
    by_cases hmem : w ∈ ws
    · rw [if_pos hmem, List.count_erase]
      by_cases hvw : w = v
      · subst hvw
        simp only [beq_self_eq_true, if_true]
        omega
      · have : (w == v) = false := by simpa using hvw
        simp only [this, Bool.false_eq_true, if_false]
        omega
    · rw [if_neg hmem]
      by_cases hvw : w = v
      · subst hvw
        have h0 : List.count w ws = 0 := List.count_eq_zero.mpr hmem
        simp [h0]
      · have : (w == v) = false := by simpa using hvw
        simp only [this, Bool.false_eq_true, if_false]
        omega

theorem remove_tables_fold_le (pageWords : List Word) :
    ∀ (ts : List BBox) (ws : List Word) (v : Word),
      List.count v
        (ts.foldl (fun words t =>
          (pageWords.filter fun w => word_inside w t).foldl
            (fun ws w => if w ∈ ws then ws.erase w else ws) words) ws)
        ≤ List.count v ws
  | [], _, _ => by simp
  | t :: ts, ws, v => by
    rw [List.foldl_cons]
    refine Nat.le_trans (remove_tables_fold_le pageWords ts _ v) ?_
    rw [remove_pass_count]
    omega

theorem remove_tables_fold_zero (pageWords : List Word) :
    ∀ (ts : List BBox) (ws : List Word) (v : Word),
      (∀ u, List.count u ws ≤ List.count u pageWords) →
      ∀ t ∈ ts, word_inside v t = true →
      List.count v
        (ts.foldl (fun words t =>
          (pageWords.filter fun w => word_inside w t).foldl
            (fun ws w => if w ∈ ws then ws.erase w else ws) words) ws) = 0
  | [], _, _, _, t, hmem, _ => by simp at hmem
  | t' :: ts, ws, v, hinv, t, hmem, hins => by
    rw [List.foldl_cons]
    have hpass : ∀ u, List.count u
        ((pageWords.filter fun w => word_inside w t').foldl
          (fun ws w => if w ∈ ws then ws.erase w else ws) ws) =
        List.count u ws -
          List.count u (pageWords.filter fun w => word_inside w t') :=
      fun u => remove_pass_count _ _ _
    rcases List.mem_cons.mp hmem with rfl | hmem2
    · have hfilt : List.count v (pageWords.filter fun w => word_inside w t) =
          List.count v pageWords := List.count_filter hins
      have h0 : List.count v
          ((pageWords.filter fun w => word_inside w t).foldl
            (fun ws w => if w ∈ ws then ws.erase w else ws) ws) = 0 := by
        rw [hpass, hfilt]
        have := hinv v
        omega
      have := remove_tables_fold_le pageWords ts
        ((pageWords.filter fun w => word_inside w t).foldl
          (fun ws w => if w ∈ ws then ws.erase w else ws) ws) v
      omega
    · refine remove_tables_fold_zero pageWords ts _ v ?_ t hmem2 hins
      intro u
      rw [hpass]
      have := hinv u
      omega

theorem remove_tables_not_inside {page_words : List Word} {tables : List BBox}
    {w : Word} (hmem : w ∈ remove_tables page_words tables) :
    ∀ t ∈ tables, word_inside w t = false := by
  intro t ht
  by_cases hc : word_inside w t
  · exfalso
    have h0 := remove_tables_fold_zero page_words tables page_words w
      (fun _ => Nat.le_refl _) t ht hc
    have hpos := List.count_pos_iff.mpr hmem
    unfold remove_tables at hpos
    omega
  · simpa using hc

/-! ## `group_lines` and `group_sections` preserve the word stream -/

theorem group_lines_step_flatten (acc : List (List Word)) (w : Word) :
    (group_lines_step acc w).flatten = acc.flatten ++ [w] := by
  unfold group_lines_step
  split
  · rename_i hacc
    have : acc = [] := List.getLast?_eq_none_iff.mp hacc
    subst this
    simp
  · rename_i line hacc
    have hne : acc ≠ [] := by
      intro hc
      rw [hc] at hacc
      simp at hacc
    have hdec : acc.dropLast ++ [line] = acc := by
      have h1 := List.dropLast_concat_getLast hne
      have h2 : acc.getLast hne = line := by
        have := List.getLast?_eq_getLast acc hne
        rw [this] at hacc
        exact (Option.some_inj.mp hacc)
      rw [h2] at h1
      exact h1
    split
    · rw [List.flatten_append]
      conv_rhs => rw [← hdec]
      simp [List.flatten_append]
    · simp

theorem group_lines_words (words : List Word) :
    ((group_lines words).map (·.words)).flatten = words := by
  unfold group_lines
  rw [List.map_map]
  have hcomp : ((fun l : Line => l.words) ∘ Line.mk) = id := rfl
  rw [hcomp, List.map_id]
  suffices h : ∀ acc, (words.foldl group_lines_step acc).flatten =
      acc.flatten ++ words by
    simpa using h []
  induction words with
  | nil => intro acc; simp
  | cons w ws ih =>
    intro acc
    rw [List.foldl_cons, ih, group_lines_step_flatten]
    simp

theorem detect_sections_flatten (acc : List (List Line)) (l : Line) :
    (detect_sections acc l).flatten = acc.flatten ++ [l] := by
  unfold detect_sections
  split
  · rename_i hacc
    have : acc = [] := List.getLast?_eq_none_iff.mp hacc
    subst this
    simp
  · rename_i para hacc
    have hne : acc ≠ [] := by
      intro hc
      rw [hc] at hacc
      simp at hacc
    have hdec : acc.dropLast ++ [para] = acc := by
      have h1 := List.dropLast_concat_getLast hne
      have h2 : acc.getLast hne = para := by
        have := List.getLast?_eq_getLast acc hne
        rw [this] at hacc
        exact (Option.some_inj.mp hacc)
      rw [h2] at h1
      exact h1
    split
    · rw [List.flatten_append]
      conv_rhs => rw [← hdec]
      simp [List.flatten_append]
    · simp

theorem group_sections_flatten (lines : List Line) :
    (group_sections lines).flatten = lines := by
  unfold group_sections
  suffices h : ∀ acc, (lines.foldl detect_sections acc).flatten =
      acc.flatten ++ lines by
    simpa using h []
  induction lines with
  | nil => intro acc; simp
  | cons l ls ih =>
    intro acc
    rw [List.foldl_cons, ih, detect_sections_flatten]
    simp

/-! ## Chapters and export file names -/

theorem all_elements_length (d : Document) :
    d.all_elements.length = d.elements.length + d.tables.length := by
  unfold Document.all_elements
  rw [List.length_mergeSort]
  simp

theorem all_elements_eq_nil_iff (d : Document) :
    d.all_elements = [] ↔ d.elements = [] ∧ d.tables = [] := by
  rw [← List.length_eq_zero, all_elements_length]
  simp [Nat.add_eq_zero, List.length_eq_zero]

theorem all_elements_ne_nil_of_elements {d : Document}
    (h : d.elements ≠ []) : d.all_elements ≠ [] :=
  fun hc => h ((all_elements_eq_nil_iff d).mp hc).1

theorem chapter_step_skip {d : Document} (chapters : List (List Document))
    (h : d.all_elements = []) : chapter_step chapters d = chapters := by
  unfold chapter_step
  rw [if_pos (by simp [List.isEmpty_iff, h])]

theorem chapter_step_new {d : Document} (chapters : List (List Document))
    (hne : d.all_elements ≠ []) (hh : has_h1 d = true ∨ chapters = []) :
    chapter_step chapters d = chapters ++ [[d]] := by
  unfold chapter_step
  rw [if_neg (by simp [List.isEmpty_iff, hne])]
  rcases hh with hh | hh
  · rw [if_pos (by simp [hh])]
  · rw [if_pos (by simp [hh])]

theorem chapter_step_append {d : Document} (chapters : List (List Document))
    (hne : d.all_elements ≠ []) (hh : has_h1 d = false)
    (hacc : chapters ≠ []) :
    chapter_step chapters d =
      chapters.dropLast ++ [chapters.getLastD [] ++ [d]] := by
  unfold chapter_step
  rw [if_neg (by simp [List.isEmpty_iff, hne])]
  rw [if_neg (by simp [hh, List.isEmpty_iff, hacc])]

theorem group_chapters_flatten (documents : List Document)
    (h : ∀ d ∈ documents, d.all_elements ≠ []) :
    (group_chapters documents).flatten = documents := by
  unfold group_chapters
  suffices hs : ∀ (docs : List Document) (acc : List (List Document)),
      (∀ d ∈ docs, d.all_elements ≠ []) →
      (docs.foldl chapter_step acc).flatten = acc.flatten ++ docs by
    simpa using hs documents [] h
  intro docs
  induction docs with
  | nil => intro acc _; simp
  | cons d ds ih =>
    intro acc hd
    rw [List.foldl_cons]
    have hne : d.all_elements ≠ [] := hd d (List.mem_cons_self _ _)
    have hstep : (chapter_step acc d).flatten = acc.flatten ++ [d] := by
      by_cases hh : has_h1 d = true ∨ acc = []
      · rw [chapter_step_new acc hne hh]
        simp
      · push_neg at hh
        rw [chapter_step_append acc hne (by simpa using hh.1) hh.2]
        rw [List.flatten_append]
        conv_rhs => rw [← dropLast_concat_getLastD acc [] hh.2]
        simp [List.flatten_append]
    rw [ih _ (fun d' hd' => hd d' (List.mem_cons_of_mem _ hd')), hstep]
    simp

theorem mapM_chapter_names :
    ∀ (chs : List (List Document)) (k : Nat),
      (∀ ch ∈ chs, ∃ d rest, ch = d :: rest ∧ d.headers ≠ []) →
      ((chs.enumFrom k).mapM fun p => chapter_file_name p.1 p.2) =
        some ((chs.enumFrom k).map fun p =>
          rjust_zero (toString p.1) 2 ++ "-" ++
            slugify ((p.2.headD default).headers.headD default).text
            ++ ".html")
  | [], k, _ => by
    show List.mapM _ (List.enumFrom k []) = _
    rw [show List.enumFrom k ([] : List (List Document)) = [] from rfl]
    rw [List.mapM_nil]
    rfl
  | ch :: chs, k, h => by
    obtain ⟨d, rest, hch, hhd⟩ := h ch (List.mem_cons_self _ _)
    obtain ⟨h0, hs, hh0⟩ := List.exists_cons_of_ne_nil hhd
    have hcf : chapter_file_name k ch =
        some (rjust_zero (toString k) 2 ++ "-" ++
          slugify ((ch.headD default).headers.headD default).text
          ++ ".html") := by
      unfold chapter_file_name chapter_title
      rw [hch]
      simp only [List.head?_cons, Option.bind_eq_bind, Option.some_bind]
      rw [hh0]
      simp only [List.head?_cons, Option.some_bind]
      rw [show (((d :: rest : List Document).headD default).headers.headD
          default) = h0 by
        rw [show (d :: rest : List Document).headD default = d from rfl, hh0]
        rfl]
      rfl
    rw [show List.enumFrom k (ch :: chs) =
      (k, ch) :: List.enumFrom (k + 1) chs from rfl]
    rw [List.mapM_cons, hcf]
    simp only [Option.bind_eq_bind, Option.some_bind]
    rw [mapM_chapter_names chs (k + 1)
      (fun ch' hch' => h ch' (List.mem_cons_of_mem _ hch'))]
    simp only [Option.some_bind, List.map_cons]
    rfl

theorem export_file_names_eq (documents : List Document)
    (H : ∀ ch ∈ group_chapters documents,
      ∃ d rest, ch = d :: rest ∧ d.headers ≠ []) :
    export_file_names documents =
      some ((group_chapters documents).enum.map fun p =>
        rjust_zero (toString p.1) 2 ++ "-" ++
          slugify ((p.2.headD default).headers.headD default).text
          ++ ".html") := by
  unfold export_file_names
  exact mapM_chapter_names _ 0 H

theorem mapM_cp_length :
    ∀ (gs : List (List Line)) (ps : List (Element × Nat)),
      gs.mapM create_paragraph = some ps → ps.length = gs.length
  | [], ps, h => by
    rw [List.mapM_nil] at h
    simp only [pure, Option.some_inj] at h
    subst h
    rfl
  | g :: gs, ps, h => by
    rw [List.mapM_cons] at h
    simp only [Option.bind_eq_bind, Option.bind_eq_some] at h
    obtain ⟨p, _, ps', hps', h⟩ := h
    simp only [pure, Option.some_inj] at h
    subst h
    simp [mapM_cp_length gs ps' hps']

/-! ## Claim theorems -/

/-- C2 (code bug): `classifier.Document.all_elements` is claimed to return
the elements and tables sorted by vertical position — but the classifier's
copy has no `return` statement, so it returns Python `None` (first
conjunct, evaluated at a one-paragraph document).  The structurally
identical `model.Document.all_elements` does return that sorted list: a
permutation of elements and tables that is pairwise ordered by the
`box[1]` coordinate (second conjunct). -/
theorem claim_C2_all_elements :
    classifier_all_elements docP = none ∧
    ∀ d : Document,
      (d.all_elements).Perm
        (d.elements.map DocItem.el ++ d.tables.map DocItem.table) ∧
      d.all_elements.Pairwise
        (fun a b => a.box.getD 1 0 ≤ b.box.getD 1 0) := by
  refine ⟨rfl, fun d => ⟨List.mergeSort_perm _ _, ?_⟩⟩
  have hs := @List.sorted_mergeSort DocItem
    (fun a b : DocItem => decide (a.box.getD 1 0 ≤ b.box.getD 1 0))
    (fun a b c hab hbc => by
      simp only [decide_eq_true_eq] at *
      omega)
    (fun a b => by
      simp only [Bool.or_eq_true, decide_eq_true_eq]
      omega)
    (d.elements.map DocItem.el ++ d.tables.map DocItem.table)
  unfold Document.all_elements
  exact hs.imp fun h => by simpa using h

/-- C3 (code bug): word-break repair is claimed to strip only the hyphen
and to act on every consecutive line pair.  The code iterates
`range(len(lines) - 2)`, so a two-line block (`"cons-"` then
`"trucciones"`) is not repaired at all (first conjunct), and where the
repair does fire it slices `text[0:-2]`, dropping a letter with the
hyphen: the merged word is `"contrucciones"`, not `"construcciones"`
(remaining conjuncts, on a three-line block). -/
theorem claim_C3_word_breaks :
    fix_word_breaks [l_cons, l_truc] = some ([l_cons, l_truc], 0) ∧
    fix_word_breaks [l_cons, l_truc, l_tail] =
      some ([l_cons_fixed, l_truc_fixed, l_tail], 1) ∧
    l_cons_fixed.words.getLast? =
      some (mkw "contrucciones" "Book" 8 26 40 5 15) ∧
    "contrucciones" ≠ "construcciones" := by
  refine ⟨by decide, by decide, by decide, by decide⟩

/-- C10 (confirmed): a line whose first word's text is exactly one
character long is never an ordered-list item: `is_ordered_list_item`
returns `False` (and in particular does not raise via the
second-character lookup), whatever that character is. -/
theorem claim_C10_single_char_marker :
    ∀ (line : Line) (w : Word), line.words.head? = some w →
      w.text.length = 1 → is_ordered_list_item line = some false := by
  intro line w hw hlen
  unfold is_ordered_list_item
  rw [hw]
  simp only [Option.bind_eq_bind, Option.some_bind]
  rw [if_pos hlen]
  rfl

/-- Witness for C10: the bare numeric token `"7"` does not start an
ordered list item. -/
theorem claim_C10_witness : is_ordered_list_item l_seven = some false :=
  claim_C10_single_char_marker l_seven (mkw "7" "Book" 8 10 30 5 15) rfl
    (by decide)

/-- C7 counterexample: `classify_lines` is not total on every list of
non-empty lines — on a line whose only word has empty text it raises
(an `IndexError` inside `is_ordered_list_item`), modelled as `none`. -/
theorem claim_C7_counterexample :
    l_bad.words ≠ [] ∧ classify_lines [l_bad] = none := by
  refine ⟨by decide, by decide⟩

/-- C7 (amended): `classify_lines` returns the empty result on the empty
line list, and always returns a value on any list of non-empty lines all
of whose word texts are non-empty (the word source's invariant); the
original claim omitted the non-empty-text requirement. -/
theorem claim_C7_amended :
    classify_lines [] = some ([], 0) ∧
    ∀ (lines : List Line), wf_lines lines →
      ∃ res, classify_lines lines = some res := by
  refine ⟨rfl, fun lines hwf => ?_⟩
  exact classify_fuel_total (lines.length + 1) lines (by omega) hwf

/-- Witness for C7: the classifier returns a value on a concrete
well-formed block. -/
theorem claim_C7_amended_witness :
    ∃ res, classify_lines [l_p1] = some res :=
  claim_C7_amended.2 [l_p1] (by decide)

/-- C6 (confirmed): for every block of pairwise-distinct lines whose word
texts contain no spaces, the total number of words displayed across all
structural elements returned by classification, plus the number of
dehyphenation merges performed, equals the block's input word count —
no other drops and no duplicates. -/
theorem claim_C6_word_conservation :
    ∀ (lines : List Line), lines.Nodup → space_free lines →
      ∀ els m, classify_lines lines = some (els, m) →
      elements_tokens els + m = total_words lines := by
  intro lines hnd hsf els m h
  exact classify_fuel_conserv (lines.length + 1) lines els m hnd hsf h

/-- Witness for C6: a two-line block classifies into two paragraphs with
no merges, and both words are conserved. -/
theorem claim_C6_witness :
    elements_tokens [.paragraph [⟨"normal", "uno"⟩] [10, 15, 30, 5],
      .paragraph [⟨"normal", "dos"⟩] [12, 30, 30, 20]] + 0 =
      total_words [l_p1, l_p2] :=
  claim_C6_word_conservation [l_p1, l_p2] (by decide) (by decide)
    [.paragraph [⟨"normal", "uno"⟩] [10, 15, 30, 5],
      .paragraph [⟨"normal", "dos"⟩] [12, 30, 30, 20]] 0 (by decide)

/-- C8 (confirmed, against the spec model of region-scoped extraction):
every word whose bounding box falls inside any detected table region is
removed from the page's word stream, so no such word reaches the lines
and sections handed to the classifier. -/
theorem claim_C8_table_words :
    ∀ (page_words : List Word) (tables : List BBox) (t : BBox)
      (sec : List Line) (l : Line) (w : Word),
      t ∈ tables →
      sec ∈ extract_text_sections page_words tables →
      l ∈ sec → w ∈ l.words →
      word_inside w t = false := by
  intro pw tables t sec l w ht hsec hl hw
  have hl2 : l ∈ group_lines (remove_tables pw tables) := by
    rw [← group_sections_flatten (group_lines (remove_tables pw tables))]
    exact List.mem_flatten.mpr ⟨sec, hsec, hl⟩
  have hw2 : w ∈ remove_tables pw tables := by
    rw [← group_lines_words (remove_tables pw tables)]
    exact List.mem_flatten.mpr ⟨l.words, List.mem_map.mpr ⟨l, hl2, rfl⟩, hw⟩
  exact remove_tables_not_inside hw2 t ht

/-- Witness for C8: on a two-word page with one table, the surviving word
of the classifier's sections is outside the table region. -/
theorem claim_C8_witness :
    word_inside (mkw "fuera" "Book" 8 10 20 200 210) ⟨0, 0, 100, 100⟩ =
      false :=
  claim_C8_table_words
    [mkw "dentro" "Book" 8 10 20 10 20, mkw "fuera" "Book" 8 10 20 200 210]
    [⟨0, 0, 100, 100⟩] ⟨0, 0, 100, 100⟩
    [⟨[mkw "fuera" "Book" 8 10 20 200 210]⟩]
    ⟨[mkw "fuera" "Book" 8 10 20 200 210]⟩
    (mkw "fuera" "Book" 8 10 20 200 210)
    (by decide) (by decide) (by decide) (by decide)

/-- C1 counterexample: the five-document instance of the claim fails when
the non-h1 documents are empty — `group_chapters` skips documents whose
`all_elements()` is empty, yielding two chapters of sizes 1 and 1 rather
than 3 and 2. -/
theorem claim_C1_counterexample :
    has_h1 docH1 = true ∧ has_h1 docEmpty = false ∧
    group_chapters [docH1, docEmpty, docEmpty, docH1, docEmpty] =
      [[docH1], [docH1]] ∧
    ([[docH1], [docH1]] : List (List Document)).map List.length = [1, 1] ∧
    ([1, 1] : List Nat) ≠ [3, 2] := by
  have hne : docH1.all_elements ≠ [] :=
    all_elements_ne_nil_of_elements (by simp [docH1])
  have hemp : docEmpty.all_elements = [] :=
    (all_elements_eq_nil_iff docEmpty).mpr ⟨rfl, rfl⟩
  have s1 : chapter_step [] docH1 = [[docH1]] := by
    rw [chapter_step_new [] hne (Or.inr rfl)]
    rfl
  have s2 : chapter_step [[docH1]] docEmpty = [[docH1]] :=
    chapter_step_skip [[docH1]] hemp
  have s4 : chapter_step [[docH1]] docH1 = [[docH1], [docH1]] := by
    rw [chapter_step_new [[docH1]] hne (Or.inl (by decide))]
    rfl
  have s5 : chapter_step [[docH1], [docH1]] docEmpty = [[docH1], [docH1]] :=
    chapter_step_skip [[docH1], [docH1]] hemp
  refine ⟨by decide, by decide, ?_, by decide, by decide⟩
  unfold group_chapters
  simp only [List.foldl_cons, List.foldl_nil]
  rw [s1, s2, s2, s4, s5]

/-- C1 (amended): chapter grouping over documents that all have at least
one element or table loses no document — the chapters concatenate back to
the input (first conjunct) — and a new chapter starts exactly at each
document containing an h1 header, the first document always starting the
first chapter: for five such documents where only the first and fourth
contain an h1 header the chapters are exactly the first three and the
last two documents (second conjunct).  Documents with no elements and no
tables are skipped, which the original claim did not allow for. -/
theorem claim_C1_amended :
    (∀ documents : List Document,
      (∀ d ∈ documents, d.all_elements ≠ []) →
      (group_chapters documents).flatten = documents) ∧
    (∀ d1 d2 d3 d4 d5 : Document,
      (∀ d ∈ [d1, d2, d3, d4, d5], d.all_elements ≠ []) →
      has_h1 d1 = true → has_h1 d2 = false → has_h1 d3 = false →
      has_h1 d4 = true → has_h1 d5 = false →
      group_chapters [d1, d2, d3, d4, d5] = [[d1, d2, d3], [d4, d5]]) := by
  refine ⟨group_chapters_flatten, ?_⟩
  intro d1 d2 d3 d4 d5 hne h1 h2 h3 h4 h5
  have e1 : d1.all_elements ≠ [] := hne d1 (by simp)
  have e2 : d2.all_elements ≠ [] := hne d2 (by simp)
  have e3 : d3.all_elements ≠ [] := hne d3 (by simp)
  have e4 : d4.all_elements ≠ [] := hne d4 (by simp)
  have e5 : d5.all_elements ≠ [] := hne d5 (by simp)
  have s1 : chapter_step [] d1 = [[d1]] := by
    rw [chapter_step_new [] e1 (Or.inr rfl)]
    rfl
  have s2 : chapter_step [[d1]] d2 = [[d1, d2]] := by
    rw [chapter_step_append [[d1]] e2 h2 (by simp)]
    rfl
  have s3 : chapter_step [[d1, d2]] d3 = [[d1, d2, d3]] := by
    rw [chapter_step_append [[d1, d2]] e3 h3 (by simp)]
    rfl
  have s4 : chapter_step [[d1, d2, d3]] d4 = [[d1, d2, d3], [d4]] := by
    rw [chapter_step_new [[d1, d2, d3]] e4 (Or.inl h4)]
    rfl
  have s5 : chapter_step [[d1, d2, d3], [d4]] d5 =
      [[d1, d2, d3], [d4, d5]] := by
    rw [chapter_step_append [[d1, d2, d3], [d4]] e5 h5 (by simp)]
    rfl
  unfold group_chapters
  simp only [List.foldl_cons, List.foldl_nil]
  rw [s1, s2, s3, s4, s5]

/-- Witness for C1: concrete five-document instance, with its flattening.
-/
theorem claim_C1_amended_witness :
    (group_chapters [docH1, docP, docP, docH1, docP]).flatten =
      [docH1, docP, docP, docH1, docP] ∧
    group_chapters [docH1, docP, docP, docH1, docP] =
      [[docH1, docP, docP], [docH1, docP]] := by
  have hne : ∀ d ∈ [docH1, docP, docP, docH1, docP],
      d.all_elements ≠ [] := by
    intro d hd
    apply all_elements_ne_nil_of_elements
    fin_cases hd <;> simp [docH1, docP]
  exact ⟨claim_C1_amended.1 _ hne,
    claim_C1_amended.2 docH1 docP docP docH1 docP hne (by decide)
      (by decide) (by decide) (by decide) (by decide)⟩

/-- C4 counterexample: a single-line block of size-10, bold-or-medium,
mixed-case words is classified as one Header, but at level `h3`, not the
claimed `h2` (`header_level` requires size strictly greater than 10 for
`h2`). -/
theorem claim_C4_counterexample :
    classify_lines [l_h2] =
      some ([.header "h3" [⟨"bold", "Hola Mundo"⟩] [10, 15, 60, 5]], 0) ∧
    (l_h2.words.headD default).size = 10 ∧
    (∀ w ∈ l_h2.words, is_medium w.fontname = true) ∧
    is_all_caps l_h2 = false ∧
    "h3" ≠ "h2" := by
  refine ⟨by decide, by decide, by decide, by decide, by decide⟩

/-- C4 (amended): for every single-line block whose first word has size
exactly 10 and in which every word is bold-or-medium, `classify_lines`
returns exactly one Header — and its level is `h3` (the original claim
said `h2`). -/
theorem claim_C4_amended :
    ∀ (l : Line) (fw : Word) (fws : List Word),
      l.words = fw :: fws → fw.size = 10 →
      (∀ w ∈ l.words, is_medium w.fontname ∨ is_bold w.fontname) →
      ∃ fts box, classify_lines [l] = some ([.header "h3" fts box], 0) := by
  intro l fw fws hw hsize hall
  have hfwhead : l.words.head? = some fw := by rw [hw]; rfl
  have hne : l.words ≠ [] := by rw [hw]; simp
  have hcond : header_test l fw = true := by
    unfold header_test
    have hmed : (fw.size == 10 &&
        l.words.all fun w => is_medium w.fontname || is_bold w.fontname)
        = true := by
      rw [hsize]
      simp only [beq_self_eq_true, Bool.true_and, List.all_eq_true,
        Bool.or_eq_true]
      exact hall
    simp only [hmed, Bool.or_true]
  obtain ⟨box, hbox⟩ := @calculate_box_total [l] (by simp)
    (by simpa using hne) (by simpa using hne)
  have hlvl : header_level l = some "h3" := by
    unfold header_level
    rw [hfwhead]
    simp only [Option.bind_eq_bind, Option.some_bind]
    rw [hsize]
    simp only [show (decide ((10 : Int) > 20)) = false from rfl,
      show (decide ((10 : Int) > 10)) = false from rfl, Bool.and_false,
      Bool.false_eq_true, if_false]
    rfl
  have hch : classify_header l =
      some (.header "h3" (format_text l.words) box) := by
    unfold classify_header
    rw [hlvl]
    simp only [Option.bind_eq_bind, Option.some_bind]
    rw [hbox]
    simp only [Option.some_bind]
    rfl
  refine ⟨format_text l.words, box, ?_⟩
  show classify_lines_fuel 2 [l] = _
  rw [classify_lines_fuel]
  simp only [Option.bind_eq_bind, hfwhead, Option.some_bind]
  rw [if_pos hcond, hch]
  simp only [Option.some_bind]
  rw [if_pos (show (([] : List Line).isEmpty) = true from rfl)]
  rfl

/-- Witness for C4: the concrete mixed-case size-10 medium line. -/
theorem claim_C4_amended_witness :
    ∃ fts box, classify_lines [l_h2] =
      some ([.header "h3" fts box], 0) :=
  claim_C4_amended l_h2 (mkw "Hola" "Font-Medium" 10 10 30 5 15)
    [mkw "Mundo" "Font-Medium" 10 31 60 5 15] rfl rfl (by decide)

/-- C5 counterexample: with minimum indent 10, the second line's indent
12 equals `min_indent + 2` and so does not exceed it, yet the paragraph
fallback starts a new Paragraph there (the code tests `>=`), producing
two Paragraphs where the claim predicts one. -/
theorem claim_C5_counterexample :
    paragraph [l_p1, l_p2] =
      some ([.paragraph [⟨"normal", "uno"⟩] [10, 15, 30, 5],
             .paragraph [⟨"normal", "dos"⟩] [12, 30, 30, 20]], 0) ∧
    list_min ([l_p1, l_p2].map fun l => (l.words.headD default).x0) =
      some 10 ∧
    (l_p2.words.headD default).x0 = 12 ∧
    ¬ ((12 : Int) > 10 + 2) := by
  refine ⟨by decide, by decide, by decide, by decide⟩

/-- C5 (amended): in the paragraph fallback over a non-empty well-formed
block with minimum indent `mi`: if `mi ≥ 120` the whole block becomes
exactly one Paragraph; otherwise the produced Paragraphs correspond one
to one to `spec_groups mi lines`, which starts a new group at the first
line and exactly at those lines whose indent is at least `mi + 2` (the
original claim said strictly exceeds `mi + 2`), all other lines joining
the current group. -/
theorem claim_C5_amended :
    ∀ (lines : List Line), lines ≠ [] → wf_lines lines →
      ∃ firsts mi, lines.mapM (fun l => l.words.head?) = some firsts ∧
        list_min (firsts.map (·.x0)) = some mi ∧
        (mi ≥ 120 → ∃ e mm, paragraph lines = some ([e], mm)) ∧
        (¬ mi ≥ 120 → ∃ ps mm,
          paragraph lines = some (ps, mm) ∧
          lines.foldlM (grouped_paragraphs_step mi) [] =
            some (spec_groups mi lines) ∧
          ps.length = (spec_groups mi lines).length) := by
  intro lines hne hwf
  obtain ⟨ws, hws, hwslen⟩ := mapM_head_total lines
    (fun l hl => (hwf l hl).1)
  have hwsne : ws.map (·.x0) ≠ [] := by
    have : ws ≠ [] := by
      intro hc
      rw [hc] at hwslen
      exact hne (List.length_eq_zero.mp hwslen.symm)
    simpa using this
  obtain ⟨mi, hmi⟩ := list_min_total hwsne
  refine ⟨ws, mi, hws, hmi, ?_, ?_⟩
  · intro hge
    obtain ⟨⟨e, mm⟩, hpm⟩ := create_paragraph_total hne hwf
    refine ⟨e, mm, ?_⟩
    unfold paragraph
    rw [hws]
    simp only [Option.bind_eq_bind, Option.some_bind]
    rw [hmi]
    simp only [Option.some_bind]
    rw [if_pos hge, hpm]
    simp only [Option.some_bind]
    rfl
  · intro hlt
    have hfold := grouped_fold_eq_spec_groups mi lines
      (fun l hl => (hwf l hl).1)
    obtain ⟨ps, hps⟩ := mapM_cp_total (spec_groups mi lines)
      (fun g hg => ⟨spec_groups_ne_nil mi lines g hg, fun l hl =>
        hwf l (by
          rw [← spec_groups_flatten mi lines]
          exact List.mem_flatten.mpr ⟨g, hg, hl⟩)⟩)
    refine ⟨ps.map (·.1), (ps.map (·.2)).sum, ?_, hfold, ?_⟩
    · unfold paragraph
      rw [hws]
      simp only [Option.bind_eq_bind, Option.some_bind]
      rw [hmi]
      simp only [Option.some_bind]
      rw [if_neg hlt, hfold]
      simp only [Option.some_bind]
      rw [hps]
      simp only [Option.some_bind]
      rfl
    · simp [mapM_cp_length (spec_groups mi lines) ps hps]

/-- Witness for C5: the two-line block with indents 10 and 12 yields two
paragraphs, matching the spec grouping with the `>=` boundary. -/
theorem claim_C5_amended_witness :
    ∃ firsts mi, [l_p1, l_p2].mapM (fun l => l.words.head?) =
        some firsts ∧
      list_min (firsts.map (·.x0)) = some mi ∧
      (mi ≥ 120 → ∃ e mm, paragraph [l_p1, l_p2] = some ([e], mm)) ∧
      (¬ mi ≥ 120 → ∃ ps mm,
        paragraph [l_p1, l_p2] = some (ps, mm) ∧
        [l_p1, l_p2].foldlM (grouped_paragraphs_step mi) [] =
          some (spec_groups mi [l_p1, l_p2]) ∧
        ps.length = (spec_groups mi [l_p1, l_p2]).length) :=
  claim_C5_amended [l_p1, l_p2] (by simp) (by decide)

/-- C9 counterexample: the chapter title used for the file name is the
text of the chapter's first header of any level, not of its first h1
header: a first document whose headers are an h2 `"Intro"` followed by an
h1 `"CAPITULO UNO"` is exported as `00-intro.html`, not
`00-capitulo-uno.html`. -/
theorem claim_C9_counterexample :
    docH2H1.headers = [hdr2, hdr1] ∧ hdr2.level = "h2" ∧
    hdr1.level = "h1" ∧ hdr1.text = "CAPITULO UNO" ∧
    export_file_names [docH2H1] = some ["00-intro.html"] ∧
    "00-intro.html" ≠ "00-capitulo-uno.html" := by
  have hgc : group_chapters [docH2H1] = [[docH2H1]] := by
    unfold group_chapters
    simp only [List.foldl_cons, List.foldl_nil]
    rw [chapter_step_new []
      (all_elements_ne_nil_of_elements (by simp [docH2H1])) (Or.inr rfl)]
    rfl
  refine ⟨by decide, by decide, by decide, by decide, ?_, by decide⟩
  unfold export_file_names
  rw [hgc]
  decide

/-- C9 (amended): export writes exactly one HTML file per chapter,
provided every chapter's first document has at least one header; the file
name is the chapter index padded with zeros on the left to two digits,
a hyphen, and the lowercased space-to-hyphen slug of the text of the
first header (of any level — the original claim said first h1 header) of
the chapter's first document, with extension `.html`. -/
theorem claim_C9_amended :
    ∀ (documents : List Document),
      (∀ ch ∈ group_chapters documents,
        ∃ d rest, ch = d :: rest ∧ d.headers ≠ []) →
      export_file_names documents =
        some ((group_chapters documents).enum.map fun p =>
          rjust_zero (toString p.1) 2 ++ "-" ++
            slugify ((p.2.headD default).headers.headD default).text
            ++ ".html") := by
  intro documents H
  exact export_file_names_eq documents H

/-- Witness for C9: the single-chapter document list. -/
theorem claim_C9_amended_witness :
    export_file_names [docH2H1] =
      some ((group_chapters [docH2H1]).enum.map fun p =>
        rjust_zero (toString p.1) 2 ++ "-" ++
          slugify ((p.2.headD default).headers.headD default).text
          ++ ".html") := by
  refine claim_C9_amended [docH2H1] ?_
  intro ch hch
  have hgc : group_chapters [docH2H1] = [[docH2H1]] := by
    unfold group_chapters
    simp only [List.foldl_cons, List.foldl_nil]
    rw [chapter_step_new []
      (all_elements_ne_nil_of_elements (by simp [docH2H1])) (Or.inr rfl)]
    rfl
  rw [hgc] at hch
  simp only [List.mem_singleton] at hch
  subst hch
  exact ⟨docH2H1, [], rfl, by decide⟩

end Explobook
